import Mathlib

/-!
Verification of the SlowHull convex-hull implementation (SlowHull.cpp).

The C++ code is shallowly embedded over exact rational scalars.  The
original uses float/double and glm; we idealise floating point as exact
arithmetic.  The only irrational quantities in the source are square roots
(vector lengths) produced by glm::length / glm::distance and the plane
normalisation in PlaneOfPts; every use of such a quantity in the program is
a sign test or an order comparison, so each comparison is translated to an
exact, algebraically equivalent rational comparison (documented at each
site).  Planes are therefore stored unnormalised: the C++ plane
(n, w)/|n| is represented by the pair (n, w); all consumers of a plane
compare its normalised signed distance against a threshold, which is
expressed exactly in terms of (n, w).
-/

/-- Rational 3-vector, modelling glm::vec3 (float idealised as ℚ). -/
structure Vec3 where
  x : ℚ
  y : ℚ
  z : ℚ
deriving DecidableEq, Repr

/-- Integer index triple, modelling glm::ivec3. -/
structure IVec3 where
  x : ℤ
  y : ℤ
  z : ℤ
deriving DecidableEq, Repr

/-- Directed edge of vertex indices, modelling glm::ivec2. -/
structure IVec2 where
  x : ℤ
  y : ℤ
deriving DecidableEq, Repr

instance : Sub Vec3 := ⟨fun a b => ⟨a.x - b.x, a.y - b.y, a.z - b.z⟩⟩

/-- glm::dot. -/
def dotV (a b : Vec3) : ℚ := a.x * b.x + a.y * b.y + a.z * b.z

/-- glm::cross. -/
def crossV (a b : Vec3) : Vec3 :=
  ⟨a.y * b.z - a.z * b.y, a.z * b.x - a.x * b.z, a.x * b.y - a.y * b.x⟩

/-- Scalar multiple of a vector. -/
def scaleV (c : ℚ) (v : Vec3) : Vec3 := ⟨c * v.x, c * v.y, c * v.z⟩

/-- Squared euclidean norm; glm::length v is the square root of this. -/
def normSq (v : Vec3) : ℚ := dotV v v

/-- The zero vector (also used as the arbitrary value of an out-of-range read). -/
def zeroV : Vec3 := ⟨0, 0, 0⟩

/-- Point lookup pts[i].  The C++ indexes a std::vector with a (possibly
negative) int; an out-of-range access is undefined behaviour there and is
modelled here by the fixed value zeroV.  The one place where the program
actually performs such an access is the unchecked sentinel deref in Hull
(see the C1 analysis). -/
def getP (pts : List Vec3) (i : ℤ) : Vec3 :=
  if 0 ≤ i then pts.getD i.toNat zeroV else zeroV

/-- Exact decision of "sqrt r > c * sqrt s" for r, s ≥ 0: both sides of the
comparison in the source are lengths (or a tolerance times a length), and
squaring is strictly monotone on nonnegatives. -/
def gtCSqrt (r c s : ℚ) : Bool :=
  if 0 ≤ c then decide (c * c * s < r) else (decide (0 < s) || decide (0 < r))

/-- Unnormalised plane: the C++ plane is (n, w) / |n| (glm::vec4), or the
null plane (0,0,0,0) when n = 0; both cases are represented by the pair,
since n = 0 forces w = dot 0 a = 0 in PlaneOfPts. -/
structure Plane where
  n : Vec3
  w : ℚ
deriving DecidableEq, Repr

/-- PlaneOfPts from the source: cross(c - a, b - a) with offset dot(crx, a).
The C++ divides by the length of crx (returning vec4() when that length is
zero); we keep the unnormalised data, which carries the same information:
all downstream uses are threshold comparisons handled exactly by sdGT and
absSdGT below. -/
def PlaneOfPts (a b c : Vec3) : Plane :=
  ⟨crossV (c - a) (b - a), dotV (crossV (c - a) (b - a)) a⟩

/-- Numerator of the C++ DistanceToPlane: the true signed distance is
sdNum / sqrt (normSq pl.n) when pl.n is nonzero, and 0 for the null plane. -/
def sdNum (pl : Plane) (p : Vec3) : ℚ := dotV pl.n p - pl.w

/-- Exact decision of "DistanceToPlane p pl > t" for the normalised C++
plane represented by pl: s / sqrt m > t where s = sdNum, m = normSq n.
Null plane: the C++ distance is 0 - 0 = 0, so the test is 0 > t. -/
def sdGT (pl : Plane) (p : Vec3) (t : ℚ) : Bool :=
  let s := sdNum pl p
  let m := normSq pl.n
  if m = 0 then decide (t < 0)
  else if 0 ≤ t then decide (0 < s) && decide (t * t * m < s * s)
  else decide (0 ≤ s) || decide (s * s < t * t * m)

/-- Exact decision of "DistanceToPlane p pl < t" (used to express the
claim's notion of a point lying behind a plane). -/
def sdLT (pl : Plane) (p : Vec3) (t : ℚ) : Bool :=
  let s := sdNum pl p
  let m := normSq pl.n
  if m = 0 then decide (0 < t)
  else if t ≤ 0 then decide (s < 0) && decide (t * t * m < s * s)
  else decide (s ≤ 0) || decide (s * s < t * t * m)

/-- Exact decision of "|DistanceToPlane p pl| > t". -/
def absSdGT (pl : Plane) (p : Vec3) (t : ℚ) : Bool :=
  let s := sdNum pl p
  let m := normSq pl.n
  if m = 0 then decide (t < 0)
  else decide (t < 0) || decide (t * t * m < s * s)

/-- Squared perpendicular offset: the C++ computes
DistanceToVector(p, u / sqrt q) = length (p - (u / sqrt q) * dot (p, u / sqrt q))
with q the squared length of u; the vector inside the length is the
rational p - (dot p u / q) * u, and this definition is its squared length. -/
def perpOffsetSq (p u : Vec3) (q : ℚ) : ℚ :=
  normSq (p - scaleV (dotV p u / q) u)

/-- NonCollinearTriple from the source.  Scans for the point furthest from
pts[0] (squared distances compared; strict improvement, so the first
maximiser is kept, exactly like the C++ running maximum), fails with the
(-1,-1,-1) sentinel if that distance is at most the precision, then scans
for the point with greatest perpendicular offset from the line through
pts[0] and the furthest point, starting from the threshold
dist * precision.  The running offset is carried as a pair (c, s)
representing the value c * sqrt s, so that every comparison of the C++
(between square roots of rationals, or against dist * precision) is decided
exactly by gtCSqrt. -/
def NonCollinearTriple (pts : List Vec3) (precision : ℚ) : IVec3 :=
  let p0 := getP pts 0
  let fd := (List.range' 2 (pts.length - 2)).foldl
    (fun (fd : ℕ × ℚ) (i : ℕ) =>
      let dSq := normSq (getP pts (i : ℤ) - p0)
      if fd.2 < dSq then (i, dSq) else fd)
    (1, normSq (getP pts 1 - p0))
  -- dist <= precision, with dist = sqrt fd.2 >= 0, is equivalent to
  -- 0 <= precision and fd.2 <= precision^2
  if decide (0 ≤ precision) && decide (fd.2 ≤ precision * precision) then ⟨-1, -1, -1⟩
  else
    let u := p0 - getP pts (fd.1 : ℤ)
    let third := (List.range' 1 (pts.length - 1)).foldl
      (fun (th : ℤ × ℚ × ℚ) (i : ℕ) =>
        let rSq := perpOffsetSq (getP pts (i : ℤ) - p0) u fd.2
        if gtCSqrt rSq th.2.1 th.2.2 then ((i : ℤ), 1, rSq) else th)
      (-1, precision, fd.2)
    if third.1 < 0 then ⟨-1, -1, -1⟩
    else ⟨0, (fd.1 : ℤ), third.1⟩

/-- NonCoplanar from the source: the first index whose absolute normalised
distance to the plane exceeds the precision, paired with whether that
distance is strictly above the precision; (-1, false) when every point is
within precision of the plane. -/
def NonCoplanar (pts : List Vec3) (plane : Plane) (precision : ℚ) : ℤ × Bool :=
  match (List.range pts.length).find?
      (fun (i : ℕ) => absSdGT plane (getP pts (i : ℤ)) precision) with
  | some i => ((i : ℤ), sdGT plane (getP pts (i : ℤ)) precision)
  | none => (-1, false)

/-- Working state of the hull builder: the three parallel vectors and the
stack of tombstoned slots.  The C++ uses the back of the dropped vector as
the top of the stack; here the head of the list is the top. -/
structure HullState where
  triangles : List IVec3
  planes : List Plane
  dropped : List ℕ
  kept : List Bool
deriving DecidableEq, Repr

/-- The empty initial state. -/
def emptyState : HullState := ⟨[], [], [], []⟩

/-- AddTri from the source: stores triangle (c, b, a) with the plane of
(a, b, c), reusing the most recently tombstoned slot when one exists and
appending otherwise. -/
def addTri (pts : List Vec3) (st : HullState) (a b c : ℤ) : HullState :=
  let tri : IVec3 := ⟨c, b, a⟩
  let pl := PlaneOfPts (getP pts a) (getP pts b) (getP pts c)
  match st.dropped with
  | idx :: rest =>
      ⟨st.triangles.set idx tri, st.planes.set idx pl, rest, st.kept.set idx true⟩
  | [] =>
      ⟨st.triangles ++ [tri], st.planes ++ [pl], [], st.kept ++ [true]⟩

/-- Reverse of a directed edge. -/
def revE (e : IVec2) : IVec2 := ⟨e.y, e.x⟩

/-- Set-semantics insertion into the half-edge collection, keeping
insertion order (the std::unordered_set iterates in unspecified order; the
results proved below about which faces get created are order-independent). -/
def insertE (l : List IVec2) (e : IVec2) : List IVec2 :=
  if e ∈ l then l else l ++ [e]

/-- The three directed edges recorded from a conflicting triangle
(tri.x, tri.z), (tri.z, tri.y), (tri.y, tri.x). -/
def triEdges (t : IVec3) : List IVec2 := [⟨t.x, t.z⟩, ⟨t.z, t.y⟩, ⟨t.y, t.x⟩]

/-- One step of the conflict scan over face slot j. -/
def scanStep (pts : List Vec3) (precision : ℚ) (i : ℤ)
    (acc : HullState × List IVec2) (j : ℕ) : HullState × List IVec2 :=
  let st := acc.1
  if st.kept.getD j false && sdGT (st.planes.getD j ⟨zeroV, 0⟩) (getP pts i) precision then
    let t := st.triangles.getD j ⟨0, 0, 0⟩
    (⟨st.triangles, st.planes, j :: st.dropped, st.kept.set j false⟩,
     insertE (insertE (insertE acc.2 ⟨t.x, t.z⟩) ⟨t.z, t.y⟩) ⟨t.y, t.x⟩)
  else acc

/-- The conflict scan for point i: walks every face slot in order, records
the half edges of conflicting live faces, tombstones them; returns the
updated state and the collected half-edge list. -/
def conflictScan (pts : List Vec3) (precision : ℚ) (st : HullState) (i : ℤ) :
    HullState × List IVec2 :=
  (List.range st.triangles.length).foldl (scanStep pts precision i) (st, [])

/-- The horizon loop from the source: iterates over the collected half
edges; an element erased earlier in the iteration is skipped; visiting an
edge whose reverse is still present erases the reverse and creates no face
(a self-inverse edge erases itself — in the C++ this is the erasure of the
element under the iterator, which is undefined behaviour there); otherwise
the edge is a horizon edge and AddTri(e.x, e.y, i) runs. -/
def horizonPass (pts : List Vec3) (i : ℤ) :
    List IVec2 → List IVec2 → HullState → HullState
  | [], _, st => st
  | e :: rest, s, st =>
      if e ∈ s then
        if revE e ∈ s then horizonPass pts i rest (s.erase (revE e)) st
        else horizonPass pts i rest s (addTri pts st e.x e.y i)
      else horizonPass pts i rest s st

/-- The list of edges for which the horizon loop creates a face, mirroring
horizonPass without the state. -/
def horizonCreated : List IVec2 → List IVec2 → List IVec2
  | [], _ => []
  | e :: rest, s =>
      if e ∈ s then
        if revE e ∈ s then horizonCreated rest (s.erase (revE e))
        else e :: horizonCreated rest s
      else horizonCreated rest s

/-- Processing of one input point inside Hull's main loop: seed points are
skipped; otherwise conflict scan, then the horizon loop over the collected
edges (the C++ clears the set afterwards; here it is local). -/
def processPoint (pts : List Vec3) (precision : ℚ) (a b c d : ℤ)
    (st : HullState) (i : ℕ) : HullState :=
  if (i : ℤ) = a ∨ (i : ℤ) = b ∨ (i : ℤ) = c ∨ (i : ℤ) = d then st
  else
    let sc := conflictScan pts precision st (i : ℤ)
    horizonPass pts (i : ℤ) sc.2 sc.2 sc.1

/-- The candidate plane built from the non-collinear triple.  When the
triple is the (-1,-1,-1) sentinel the C++ reads pts[-1] three times —
out-of-bounds reads (undefined behaviour, the unguarded case of claim C1) —
modelled by getP's fixed zero value, which makes the plane null. -/
def candidatePlane (pts : List Vec3) (precision : ℚ) : Plane :=
  let trip := NonCollinearTriple pts precision
  PlaneOfPts (getP pts trip.x) (getP pts trip.y) (getP pts trip.z)

/-- Seed indices (a, b, c, d) as computed by Hull lines 80-82: the two
in-plane indices trip.y, trip.z are swapped exactly when dIsAboveTrip. -/
structure Seed where
  a : ℤ
  b : ℤ
  c : ℤ
  d : ℤ
deriving DecidableEq, Repr

/-- The seed quadruple from Hull's seed phase. -/
def seedIdx (pts : List Vec3) (precision : ℚ) : Seed :=
  let trip := NonCollinearTriple pts precision
  let dc := NonCoplanar pts (candidatePlane pts precision) precision
  ⟨trip.x, if dc.2 then trip.z else trip.y, if dc.2 then trip.y else trip.z, dc.1⟩

/-- The four seed faces AddTri(a,b,c), AddTri(d,b,a), AddTri(c,d,a),
AddTri(b,d,c). -/
def seedState (pts : List Vec3) (precision : ℚ) : HullState :=
  let s := seedIdx pts precision
  addTri pts (addTri pts (addTri pts (addTri pts emptyState s.a s.b s.c) s.d s.b s.a)
    s.c s.d s.a) s.b s.d s.c

/-- The final builder state: none on the two early returns (fewer than 4
points, or NonCoplanar failed — note that the collinear-failure sentinel
reaches this check only after the out-of-bounds candidatePlane reads). -/
def hullFinal (pts : List Vec3) (precision : ℚ) : Option HullState :=
  if pts.length < 4 then none
  else if (NonCoplanar pts (candidatePlane pts precision) precision).1 < 0 then none
  else
    let s := seedIdx pts precision
    some ((List.range pts.length).foldl (processPoint pts precision s.a s.b s.c s.d)
      (seedState pts precision))

/-- Compaction of the live faces into the output, in slot order. -/
def collectOut (st : HullState) : List IVec3 :=
  ((st.triangles.zip st.kept).filter (fun tk => tk.2)).map (fun tk => tk.1)

/-- Hull(points, precision) from the source. -/
def Hull (pts : List Vec3) (precision : ℚ) : List IVec3 :=
  (hullFinal pts precision).elim [] collectOut

/-- The scale computed by the one-argument overload: running maximum of the
absolute values of all coordinates, starting from 0, with the same
strict-improvement updates as the three ifs in the source. -/
def scaleOf (pts : List Vec3) : ℚ :=
  pts.foldl
    (fun s p =>
      let s1 := if |p.x| > s then |p.x| else s
      let s2 := if |p.y| > s1 then |p.y| else s1
      if |p.z| > s2 then |p.z| else s2)
    0

/-- The one-argument overload Hull(points): derives the tolerance
1e-9 * scale and delegates. -/
def Hull' (pts : List Vec3) : List IVec3 :=
  Hull pts ((1 / 1000000000) * scaleOf pts)

/-! Invariant predicates over the builder state. -/

/-- Consistency of the parallel vectors and the tombstone stack (claim C9):
the three parallel lists have equal length, the dropped list is
duplicate-free, and it holds exactly the slots whose liveness flag is
false. -/
def StateWF (st : HullState) : Prop :=
  st.planes.length = st.triangles.length ∧
  st.kept.length = st.triangles.length ∧
  st.dropped.Nodup ∧
  ∀ j : ℕ, j ∈ st.dropped ↔ (j < st.triangles.length ∧ st.kept.getD j false = false)

/-- A face-table row as produced by AddTri: the triangle is the reversal
(c, b, a) of some argument order (a, b, c) and the stored plane is the
plane of that order (claim C4). -/
def FaceOK (pts : List Vec3) (t : IVec3) (pl : Plane) : Prop :=
  ∃ a b c : ℤ, t = ⟨c, b, a⟩ ∧ pl = PlaneOfPts (getP pts a) (getP pts b) (getP pts c)

/-- Vertex sanity of a triangle (claim C10): indices pairwise distinct and
drawn from the set V. -/
def VertOK (V : Set ℤ) (t : IVec3) : Prop :=
  t.x ∈ V ∧ t.y ∈ V ∧ t.z ∈ V ∧ t.x ≠ t.y ∧ t.x ≠ t.z ∧ t.y ≠ t.z

/-- A row property holding of every face-table slot. -/
def rowsOK (Q : IVec3 → Plane → Prop) (st : HullState) : Prop :=
  ∀ j : ℕ, j < st.triangles.length →
    Q (st.triangles.getD j ⟨0, 0, 0⟩) (st.planes.getD j ⟨zeroV, 0⟩)

/-- The final state reached by the builder, or the empty state on the early
returns. -/
def hullStateD (pts : List Vec3) (precision : ℚ) : HullState :=
  (hullFinal pts precision).getD emptyState

/-! Real-valued vectors for the specification-side geometric predicates
(the claims' "collinear/coplanar within tolerance" quantify over arbitrary
real lines and planes, not over anything the program computes). -/

/-- Real 3-vector. -/
structure RVec3 where
  x : ℝ
  y : ℝ
  z : ℝ

instance : Sub RVec3 := ⟨fun a b => ⟨a.x - b.x, a.y - b.y, a.z - b.z⟩⟩

/-- Real dot product. -/
def dotR (a b : RVec3) : ℝ := a.x * b.x + a.y * b.y + a.z * b.z

/-- Real scalar multiple. -/
def smulR (c : ℝ) (v : RVec3) : RVec3 := ⟨c * v.x, c * v.y, c * v.z⟩

/-- Real squared norm. -/
def normSqR (v : RVec3) : ℝ := dotR v v

/-- Embedding of the rational model vectors into the reals. -/
def toR (v : Vec3) : RVec3 := ⟨(v.x : ℝ), (v.y : ℝ), (v.z : ℝ)⟩

/-- Four collinear points: seed selection fails with the sentinel. -/
def pts1ce : List Vec3 := [⟨0,0,0⟩, ⟨1,0,0⟩, ⟨2,0,0⟩, ⟨3,0,0⟩]

/-- A flat seed tetrahedron (apex height 3/5) plus a fifth point that is
within the tolerance 1/2 in front of the base face but in conflict with one
side face; the replacement faces leave an input point far beyond tolerance
in front of a final face. -/
def pts3ce : List Vec3 :=
  [⟨0,0,0⟩, ⟨10,0,0⟩, ⟨5,8,0⟩, ⟨5,3,3/5⟩, ⟨5,-51/10,-49/100⟩]

/-- A tetrahedron whose fourth point lies in front of the candidate plane,
so the builder swaps the two in-plane seed indices. -/
def pts5ce : List Vec3 := [⟨0,0,0⟩, ⟨1,0,0⟩, ⟨0,1,0⟩, ⟨0,0,-1⟩]

/-- A tetrahedron plus a fifth point in conflict with the two adjacent
faces meeting at the edge between points 0 and 1: the conflict scan inserts
both directed copies of that edge. -/
def pts6ce : List Vec3 := [⟨0,0,0⟩, ⟨10,0,0⟩, ⟨5,8,0⟩, ⟨5,3,5⟩, ⟨5,-6,-2⟩]

/-- The unit cube (used as a nondegenerate witness input). -/
def cubePts : List Vec3 :=
  [⟨0,0,0⟩, ⟨1,0,0⟩, ⟨0,1,0⟩, ⟨1,1,0⟩, ⟨0,0,1⟩, ⟨1,0,1⟩, ⟨0,1,1⟩, ⟨1,1,1⟩]

/-- Four copies of the origin (the degenerate all-at-origin input of C8). -/
def originPts : List Vec3 := [zeroV, zeroV, zeroV, zeroV]

/-! Componentwise descriptions of the vector operations. -/

/-- Components of a subtraction. -/
theorem Vec3.sub_def (a b : Vec3) :
    a - b = ⟨a.x - b.x, a.y - b.y, a.z - b.z⟩ := rfl

/-- A Vec3 is determined by its components. -/
theorem Vec3.ext' {a b : Vec3} (hx : a.x = b.x) (hy : a.y = b.y)
    (hz : a.z = b.z) : a = b := by
  cases a; cases b; simp_all

/-- Squared norms are nonnegative. -/
theorem normSq_nonneg (v : Vec3) : 0 ≤ normSq v := by
  simp only [normSq, dotV]
  nlinarith [mul_self_nonneg v.x, mul_self_nonneg v.y, mul_self_nonneg v.z]

/-- The first seed point lies exactly on the plane of the triple. -/
theorem sdNum_self_a (A B C : Vec3) : sdNum (PlaneOfPts A B C) A = 0 := by
  simp only [sdNum, PlaneOfPts]
  ring

/-- The second seed point lies exactly on the plane of the triple. -/
theorem sdNum_self_b (A B C : Vec3) : sdNum (PlaneOfPts A B C) B = 0 := by
  simp only [sdNum, PlaneOfPts, dotV, crossV, Vec3.sub_def]
  ring

/-- The third seed point lies exactly on the plane of the triple. -/
theorem sdNum_self_c (A B C : Vec3) : sdNum (PlaneOfPts A B C) C = 0 := by
  simp only [sdNum, PlaneOfPts, dotV, crossV, Vec3.sub_def]
  ring

/-- The winding identity behind claim C4: for the stored triangle (c, b, a)
the cross product cross(b - c, a - c) taken in stored vertex order equals
the unnormalised plane normal cross(c - a, b - a) of the AddTri argument
order. -/
theorem crossV_reversal (A B C : Vec3) :
    crossV (B - C) (A - C) = crossV (C - A) (B - A) := by
  apply Vec3.ext' <;> simp only [crossV, Vec3.sub_def] <;> ring

/-- The plane of a reversed in-plane pair is the negation of the original
plane: normal and offset both change sign. -/
theorem PlaneOfPts_swap (A B C : Vec3) :
    PlaneOfPts A C B =
      ⟨⟨-(PlaneOfPts A B C).n.x, -(PlaneOfPts A B C).n.y, -(PlaneOfPts A B C).n.z⟩,
        -(PlaneOfPts A B C).w⟩ := by
  simp only [PlaneOfPts, crossV, dotV, Vec3.sub_def, Plane.mk.injEq, Vec3.mk.injEq]
  refine ⟨⟨?_, ?_, ?_⟩, ?_⟩ <;> ring

/-- Reversal of a directed edge is an involution. -/
theorem revE_revE (e : IVec2) : revE (revE e) = e := rfl

/-- Transport of edge reversal across equality. -/
theorem eq_revE_iff {x e : IVec2} : x = revE e ↔ revE x = e := by
  constructor
  · rintro rfl; exact revE_revE e
  · rintro rfl; exact (revE_revE x).symm

/-- Membership in the half-edge set after an insertion. -/
theorem insertE_mem (l : List IVec2) (e x : IVec2) :
    x ∈ insertE l e ↔ x ∈ l ∨ x = e := by
  unfold insertE
  split
  · rename_i h
    constructor
    · exact Or.inl
    · rintro (hx | rfl) <;> [exact hx; exact h]
  · simp

/-- Insertion preserves freedom from duplicates. -/
theorem insertE_nodup (l : List IVec2) (e : IVec2) (h : l.Nodup) :
    (insertE l e).Nodup := by
  unfold insertE
  by_cases he : e ∈ l
  · rw [if_pos he]; exact h
  · rw [if_neg he, List.nodup_append]
    refine ⟨h, List.nodup_singleton e, ?_⟩
    simp only [List.disjoint_singleton]
    exact he

/-- The horizon loop is the fold of AddTri over the edges it selects. -/
theorem horizonPass_eq_foldl (pts : List Vec3) (i : ℤ) :
    ∀ (todo S : List IVec2) (st : HullState),
      horizonPass pts i todo S st =
        (horizonCreated todo S).foldl (fun s e => addTri pts s e.x e.y i) st := by
  intro todo
  induction todo with
  | nil => intro S st; rfl
  | cons e rest ih =>
      intro S st
      by_cases he : e ∈ S
      · by_cases hre : revE e ∈ S
        · simp only [horizonPass, horizonCreated, if_pos he, if_pos hre]
          exact ih _ _
        · simp only [horizonPass, horizonCreated, if_pos he, if_neg hre, List.foldl_cons]
          exact ih _ _
      · simp only [horizonPass, horizonCreated, if_neg he]
        exact ih _ _

/-- Characterisation of the horizon loop's selected edges: when the visit
list, the erasure set and an ambient edge set E are in the relationship
maintained by the loop (initially all three are E), the loop creates a face
exactly for each visited edge whose reverse is not in E.  C is the set of
already visited edges. -/
theorem horizonCreated_go :
    ∀ (todo E C S : List IVec2),
      (∀ x, x ∈ E ↔ (x ∈ C ∨ x ∈ todo)) →
      (∀ x ∈ todo, x ∉ C) →
      todo.Nodup →
      S.Nodup →
      (∀ x ∈ S, x ∈ E) →
      (∀ x ∈ todo, (x ∈ S ↔ revE x ∉ C)) →
      horizonCreated todo S = todo.filter (fun e => decide (revE e ∉ E)) := by
  intro todo
  induction todo with
  | nil => intro E C S _ _ _ _ _ _; rfl
  | cons e rest ih =>
      intro E C S hiff hdisj htodo hS hSsub h1
      have heE : e ∈ E := (hiff e).2 (Or.inr (List.mem_cons_self e rest))
      have heC : e ∉ C := hdisj e (List.mem_cons_self e rest)
      have herest : e ∉ rest := (List.nodup_cons.1 htodo).1
      have hrest : rest.Nodup := (List.nodup_cons.1 htodo).2
      by_cases he : e ∈ S
      · by_cases hre : revE e ∈ S
        · -- the reverse is present: erase it, no face for either
          have hreE : revE e ∈ E := hSsub _ hre
          simp only [horizonCreated, if_pos he, if_pos hre, List.filter_cons]
          rw [if_neg (by simp [hreE])]
          refine ih E (e :: C) (S.erase (revE e)) ?_ ?_ hrest (hS.erase _)
            (fun x hx => hSsub x (List.mem_of_mem_erase hx)) ?_
          · intro x
            rw [hiff x]
            simp [List.mem_cons, or_assoc]
            tauto
          · intro x hx
            simp only [List.mem_cons, not_or]
            exact ⟨fun hxe => herest (hxe ▸ hx), hdisj x (List.mem_cons_of_mem e hx)⟩
          · intro x hx
            rw [hS.mem_erase_iff]
            simp only [List.mem_cons, not_or]
            have hiffx := h1 x (List.mem_cons_of_mem e hx)
            constructor
            · rintro ⟨hne, hxS⟩
              exact ⟨fun hrx => hne (eq_revE_iff.2 hrx), hiffx.1 hxS⟩
            · rintro ⟨hne, hnc⟩
              exact ⟨fun hxe => hne (eq_revE_iff.1 hxe), hiffx.2 hnc⟩
        · -- horizon edge: a face is created; its reverse is not in E
          have hreE : revE e ∉ E := by
            intro hmem
            rcases (hiff _).1 hmem with hC | hT
            · exact (h1 e (List.mem_cons_self e rest)).1 he hC
            · rcases List.mem_cons.1 hT with heq | hmemr
              · exact hre (by rw [heq]; exact he)
              · exact hre ((h1 _ (List.mem_cons_of_mem e hmemr)).2
                  (by rw [revE_revE]; exact heC))
          simp only [horizonCreated, if_pos he, if_neg hre, List.filter_cons]
          rw [if_pos (by simp [hreE])]
          refine congrArg (e :: ·) (ih E (e :: C) S ?_ ?_ hrest hS hSsub ?_)
          · intro x
            rw [hiff x]
            simp [List.mem_cons, or_assoc]
            tauto
          · intro x hx
            simp only [List.mem_cons, not_or]
            exact ⟨fun hxe => herest (hxe ▸ hx), hdisj x (List.mem_cons_of_mem e hx)⟩
          · intro x hx
            have hxE : x ∈ E := (hiff x).2 (Or.inr (List.mem_cons_of_mem e hx))
            have hne : revE x ≠ e := by
              intro hrx
              exact hreE (eq_revE_iff.2 hrx ▸ hxE)
            rw [h1 x (List.mem_cons_of_mem e hx)]
            simp [List.mem_cons, hne]
      · -- already cancelled earlier: skipped, and its reverse was visited
        have hreC : revE e ∈ C := by
          by_contra hnc
          exact he ((h1 e (List.mem_cons_self e rest)).2 hnc)
        have hreE : revE e ∈ E := (hiff _).2 (Or.inl hreC)
        simp only [horizonCreated, if_neg he, List.filter_cons]
        rw [if_neg (by simp [hreE])]
        refine ih E (e :: C) S ?_ ?_ hrest hS hSsub ?_
        · intro x
          rw [hiff x]
          simp [List.mem_cons, or_assoc]
          tauto
        · intro x hx
          simp only [List.mem_cons, not_or]
          exact ⟨fun hxe => herest (hxe ▸ hx), hdisj x (List.mem_cons_of_mem e hx)⟩
        · intro x hx
          have hne : revE x ≠ e := by
            intro hrx
            have : x = revE e := eq_revE_iff.2 hrx
            exact hdisj x (List.mem_cons_of_mem e hx) (this ▸ hreC)
          rw [h1 x (List.mem_cons_of_mem e hx)]
          simp [List.mem_cons, hne]

/-- The horizon loop, started on the collected edge set E itself, creates a
face exactly for each collected edge whose reverse was not collected. -/
theorem horizonCreated_eq (E : List IVec2) (hE : E.Nodup) :
    horizonCreated E E = E.filter (fun e => decide (revE e ∉ E)) :=
  horizonCreated_go E E [] E (by simp) (by simp) hE hE (fun _ h => h)
    (fun x hx => by simpa using hx)

/-! List access helper lemmas. -/

/-- Reading an updated slot. -/
theorem getD_set_self {α : Type} (l : List α) (k : ℕ) (b d : α) (hk : k < l.length) :
    (l.set k b).getD k d = b := by
  rw [List.getD_eq_getElem?_getD, List.getElem?_set]
  simp [hk]

/-- Reading a slot other than the updated one. -/
theorem getD_set_ne {α : Type} (l : List α) (k j : ℕ) (b d : α) (h : j ≠ k) :
    (l.set k b).getD j d = l.getD j d := by
  rw [List.getD_eq_getElem?_getD, List.getElem?_set, if_neg (fun hkj => h hkj.symm),
    ← List.getD_eq_getElem?_getD]

/-- Reading the appended slot. -/
theorem getD_append_self {α : Type} (l : List α) (b d : α) :
    (l ++ [b]).getD l.length d = b := by
  rw [List.getD_append_right _ _ _ _ (le_refl _)]
  simp

/-- Reading beyond the end yields the default. -/
theorem getD_of_len_le {α : Type} (l : List α) (j : ℕ) (d : α) (h : l.length ≤ j) :
    l.getD j d = d := by
  rw [List.getD_eq_getElem?_getD, List.getElem?_eq_none h]
  rfl

/-! Conflict-scan lemmas. -/

/-- Fold invariant preservation. -/
theorem foldl_inv {α β : Type} (f : β → α → β) (P : β → Prop) :
    ∀ (l : List α) (b : β), P b → (∀ b' a, P b' → P (f b' a)) → P (l.foldl f b) := by
  intro l
  induction l with
  | nil => intro b hb _; exact hb
  | cons a r ih => intro b hb hs; exact ih _ (hs _ _ hb) hs

/-- Unfolding of scanStep when the face at slot j is live and in conflict. -/
theorem scanStep_pos (pts : List Vec3) (precision : ℚ) (i : ℤ)
    (acc : HullState × List IVec2) (j : ℕ)
    (hc : (acc.1.kept.getD j false &&
      sdGT (acc.1.planes.getD j ⟨zeroV, 0⟩) (getP pts i) precision) = true) :
    scanStep pts precision i acc j =
      (HullState.mk acc.1.triangles acc.1.planes (j :: acc.1.dropped)
        (acc.1.kept.set j false),
       insertE (insertE (insertE acc.2
         (IVec2.mk (acc.1.triangles.getD j ⟨0,0,0⟩).x (acc.1.triangles.getD j ⟨0,0,0⟩).z))
         (IVec2.mk (acc.1.triangles.getD j ⟨0,0,0⟩).z (acc.1.triangles.getD j ⟨0,0,0⟩).y))
         (IVec2.mk (acc.1.triangles.getD j ⟨0,0,0⟩).y (acc.1.triangles.getD j ⟨0,0,0⟩).x)) := by
  simp only [scanStep]
  rw [if_pos hc]

/-- Unfolding of scanStep when the face at slot j is dead or unconflicted. -/
theorem scanStep_neg (pts : List Vec3) (precision : ℚ) (i : ℤ)
    (acc : HullState × List IVec2) (j : ℕ)
    (hc : ¬ (acc.1.kept.getD j false &&
      sdGT (acc.1.planes.getD j ⟨zeroV, 0⟩) (getP pts i) precision) = true) :
    scanStep pts precision i acc j = acc := by
  simp only [scanStep]
  rw [if_neg hc]

/-- scanStep never changes the triangle and plane vectors. -/
theorem scanStep_fst (pts : List Vec3) (precision : ℚ) (i : ℤ)
    (acc : HullState × List IVec2) (j : ℕ) :
    (scanStep pts precision i acc j).1.triangles = acc.1.triangles ∧
    (scanStep pts precision i acc j).1.planes = acc.1.planes := by
  by_cases hc : (acc.1.kept.getD j false &&
      sdGT (acc.1.planes.getD j ⟨zeroV, 0⟩) (getP pts i) precision) = true
  · rw [scanStep_pos pts precision i acc j hc]
    exact ⟨rfl, rfl⟩
  · rw [scanStep_neg pts precision i acc j hc]
    exact ⟨rfl, rfl⟩

/-- The conflict scan never changes the triangle and plane vectors. -/
theorem conflictScan_fst (pts : List Vec3) (precision : ℚ) (st : HullState) (i : ℤ) :
    (conflictScan pts precision st i).1.triangles = st.triangles ∧
    (conflictScan pts precision st i).1.planes = st.planes := by
  unfold conflictScan
  refine foldl_inv (scanStep pts precision i)
    (fun acc => acc.1.triangles = st.triangles ∧ acc.1.planes = st.planes)
    (List.range st.triangles.length) (st, []) ⟨rfl, rfl⟩ (fun acc j h => ?_)
  obtain ⟨h1, h2⟩ := scanStep_fst pts precision i acc j
  exact ⟨h1.trans h.1, h2.trans h.2⟩

/-- The collected half-edge list is duplicate-free, and each collected edge
is an edge of a triangle that was live when the scan started. -/
theorem conflictScan_edges (pts : List Vec3) (precision : ℚ) (st : HullState) (i : ℤ) :
    (conflictScan pts precision st i).2.Nodup ∧
    (∀ e ∈ (conflictScan pts precision st i).2, ∃ j : ℕ,
      st.kept.getD j false = true ∧ e ∈ triEdges (st.triangles.getD j ⟨0, 0, 0⟩)) := by
  unfold conflictScan
  have main : ∀ (L : List ℕ) (acc : HullState × List IVec2),
      acc.1.triangles = st.triangles →
      (∀ j : ℕ, acc.1.kept.getD j false = true → st.kept.getD j false = true) →
      acc.2.Nodup →
      (∀ e ∈ acc.2, ∃ j : ℕ, st.kept.getD j false = true ∧
        e ∈ triEdges (st.triangles.getD j ⟨0, 0, 0⟩)) →
      (L.foldl (scanStep pts precision i) acc).2.Nodup ∧
      (∀ e ∈ (L.foldl (scanStep pts precision i) acc).2, ∃ j : ℕ,
        st.kept.getD j false = true ∧ e ∈ triEdges (st.triangles.getD j ⟨0, 0, 0⟩)) := by
    intro L
    induction L with
    | nil => intro acc _ _ h2 h3; exact ⟨h2, h3⟩
    | cons j rest ih =>
        intro acc htri hkept h2 h3
        rw [List.foldl_cons]
        by_cases hc : (acc.1.kept.getD j false &&
            sdGT (acc.1.planes.getD j ⟨zeroV, 0⟩) (getP pts i) precision) = true
        · have hc' := (Bool.and_eq_true (acc.1.kept.getD j false)
            (sdGT (acc.1.planes.getD j ⟨zeroV, 0⟩) (getP pts i) precision)) ▸ hc
          rw [scanStep_pos pts precision i acc j hc]
          have hkj : st.kept.getD j false = true := hkept j hc'.1
          refine ih _ htri ?_ ?_ ?_
          · intro j' hj'
            by_cases hjj : j' = j
            · rw [hjj]; exact hkj
            · apply hkept
              rw [← getD_set_ne acc.1.kept j j' false false hjj]
              exact hj'
          · exact insertE_nodup _ _ (insertE_nodup _ _ (insertE_nodup _ _ h2))
          · intro e he
            rw [insertE_mem] at he
            rcases he with he | rfl
            · rw [insertE_mem] at he
              rcases he with he | rfl
              · rw [insertE_mem] at he
                rcases he with he | rfl
                · exact h3 e he
                · exact ⟨j, hkj, by rw [← htri]; simp [triEdges]⟩
              · exact ⟨j, hkj, by rw [← htri]; simp [triEdges]⟩
            · exact ⟨j, hkj, by rw [← htri]; simp [triEdges]⟩
        · rw [scanStep_neg pts precision i acc j hc]
          exact ih _ htri hkept h2 h3
  exact main _ (st, []) rfl (fun _ h => h) List.nodup_nil (by simp)

/-- Liveness after the conflict scan: a slot is live afterwards exactly
when it was live before and its face was not in conflict with the point. -/
theorem conflictScan_kept (pts : List Vec3) (precision : ℚ) (st : HullState) (i : ℤ)
    (j : ℕ) :
    (conflictScan pts precision st i).1.kept.getD j false =
      (st.kept.getD j false &&
        !(decide (j < st.triangles.length) &&
          sdGT (st.planes.getD j ⟨zeroV, 0⟩) (getP pts i) precision)) := by
  unfold conflictScan
  have main : ∀ (L : List ℕ) (acc : HullState × List IVec2),
      L.Nodup →
      acc.1.planes = st.planes →
      (L.foldl (scanStep pts precision i) acc).1.kept.getD j false =
        (acc.1.kept.getD j false &&
          !(decide (j ∈ L) &&
            sdGT (st.planes.getD j ⟨zeroV, 0⟩) (getP pts i) precision)) := by
    intro L
    induction L with
    | nil => intro acc _ _; simp
    | cons k rest ih =>
        intro acc hnd hpl
        rw [List.foldl_cons]
        have hknr : k ∉ rest := (List.nodup_cons.1 hnd).1
        have hrest : rest.Nodup := (List.nodup_cons.1 hnd).2
        by_cases hc : (acc.1.kept.getD k false &&
            sdGT (acc.1.planes.getD k ⟨zeroV, 0⟩) (getP pts i) precision) = true
        · have hc' := (Bool.and_eq_true (acc.1.kept.getD k false)
            (sdGT (acc.1.planes.getD k ⟨zeroV, 0⟩) (getP pts i) precision)) ▸ hc
          have hrec := ih (scanStep pts precision i acc k) hrest
            (by rw [scanStep_pos pts precision i acc k hc]; exact hpl)
          rw [hrec, scanStep_pos pts precision i acc k hc]
          dsimp only
          by_cases hjk : j = k
          · subst hjk
            have hin : acc.1.kept.getD j false = true := hc'.1
            have hlt : j < acc.1.kept.length := by
              by_contra hge
              rw [getD_of_len_le _ _ _ (le_of_not_lt hge)] at hin
              exact Bool.false_ne_true hin
            have hsd : sdGT (st.planes.getD j ⟨zeroV, 0⟩) (getP pts i) precision = true := by
              rw [← hpl]
              exact hc'.2
            rw [getD_set_self _ _ _ _ hlt, Bool.false_and, hin, hsd]
            have hd : decide (j ∈ j :: rest) = true :=
              decide_eq_true (List.mem_cons_self j rest)
            rw [hd]
            rfl
          · rw [getD_set_ne _ _ _ _ _ hjk]
            have hd : decide (j ∈ k :: rest) = decide (j ∈ rest) :=
              decide_eq_decide.2 (by simp [List.mem_cons, hjk])
            rw [hd]
        · rw [scanStep_neg pts precision i acc k hc, ih acc hrest hpl]
          by_cases hjk : j = k
          · subst hjk
            rw [hpl] at hc
            cases h1 : acc.1.kept.getD j false with
            | false => rw [Bool.false_and, Bool.false_and]
            | true =>
                cases h2 : sdGT (st.planes.getD j ⟨zeroV, 0⟩) (getP pts i) precision with
                | false => rw [Bool.and_false, Bool.and_false]
                | true => exact absurd (by rw [h1, h2]; rfl) hc
          · have hd : decide (j ∈ k :: rest) = decide (j ∈ rest) :=
              decide_eq_decide.2 (by simp [List.mem_cons, hjk])
            rw [hd]
  rw [main (List.range st.triangles.length) (st, []) (List.nodup_range _) rfl]
  have hd : decide (j ∈ List.range st.triangles.length) =
      decide (j < st.triangles.length) :=
    decide_eq_decide.2 List.mem_range
  rw [hd]

/-! State well-formedness machinery (claim C9). -/

/-- Unfolding of addTri when a tombstoned slot is available: the most
recently dropped slot is overwritten. -/
theorem addTri_cons (pts : List Vec3) (st : HullState) (a b c : ℤ)
    (idx : ℕ) (rest : List ℕ) (h : st.dropped = idx :: rest) :
    addTri pts st a b c =
      ⟨st.triangles.set idx ⟨c, b, a⟩,
       st.planes.set idx (PlaneOfPts (getP pts a) (getP pts b) (getP pts c)),
       rest, st.kept.set idx true⟩ := by
  unfold addTri
  rw [h]

/-- Unfolding of addTri when no tombstoned slot exists: a fresh slot is
appended. -/
theorem addTri_nil (pts : List Vec3) (st : HullState) (a b c : ℤ)
    (h : st.dropped = []) :
    addTri pts st a b c =
      ⟨st.triangles ++ [⟨c, b, a⟩],
       st.planes ++ [PlaneOfPts (getP pts a) (getP pts b) (getP pts c)],
       [], st.kept ++ [true]⟩ := by
  unfold addTri
  rw [h]

/-- The empty state is well formed. -/
theorem emptyState_wf : StateWF emptyState := by
  refine ⟨rfl, rfl, List.nodup_nil, fun j => ?_⟩
  simp [emptyState]

/-- AddTri preserves well-formedness. -/
theorem addTri_wf (pts : List Vec3) (st : HullState) (a b c : ℤ)
    (h : StateWF st) : StateWF (addTri pts st a b c) := by
  obtain ⟨hpl, hk, hnd, hmem⟩ := h
  cases hd : st.dropped with
  | nil =>
      rw [addTri_nil pts st a b c hd]
      refine ⟨by simp [hpl], by simp [hk], List.nodup_nil, fun j => ?_⟩
      simp only [List.mem_nil_iff, false_iff, not_and, List.length_append,
        List.length_singleton]
      intro hj
      rcases lt_trichotomy j st.kept.length with hlt | heq | hgt
      · rw [List.getD_append _ _ _ _ hlt]
        intro hf
        have : j ∈ st.dropped := (hmem j).2 ⟨by omega, hf⟩
        rw [hd] at this
        exact absurd this (List.not_mem_nil j)
      · rw [heq, getD_append_self]
        exact fun hf => Bool.noConfusion hf
      · intro hf
        rw [hk] at hgt
        omega
  | cons idx rest =>
      have hidx : idx < st.triangles.length ∧ st.kept.getD idx false = false :=
        (hmem idx).1 (by rw [hd]; exact List.mem_cons_self idx rest)
      have hndr : idx ∉ rest ∧ rest.Nodup := by
        rw [hd] at hnd
        exact ⟨(List.nodup_cons.1 hnd).1, (List.nodup_cons.1 hnd).2⟩
      rw [addTri_cons pts st a b c idx rest hd]
      refine ⟨by simp [hpl], by simp [hk], hndr.2, fun j => ?_⟩
      simp only [List.length_set]
      constructor
      · intro hj
        have hjd : j ∈ st.dropped := by rw [hd]; exact List.mem_cons_of_mem idx hj
        have hj' := (hmem j).1 hjd
        have hne : j ≠ idx := fun hji => hndr.1 (hji ▸ hj)
        rw [getD_set_ne _ _ _ _ _ hne]
        exact hj'
      · rintro ⟨hlt, hf⟩
        by_cases hji : j = idx
        · subst hji
          rw [getD_set_self _ _ _ _ (by rw [hk]; exact hidx.1)] at hf
          exact Bool.noConfusion hf
        · rw [getD_set_ne _ _ _ _ _ hji] at hf
          have : j ∈ st.dropped := (hmem j).2 ⟨hlt, hf⟩
          rw [hd] at this
          rcases List.mem_cons.1 this with h | h
          · exact absurd h hji
          · exact h

/-- scanStep preserves well-formedness. -/
theorem scanStep_wf (pts : List Vec3) (precision : ℚ) (i : ℤ)
    (acc : HullState × List IVec2) (j : ℕ)
    (h : StateWF acc.1) : StateWF (scanStep pts precision i acc j).1 := by
  by_cases hc : (acc.1.kept.getD j false &&
      sdGT (acc.1.planes.getD j ⟨zeroV, 0⟩) (getP pts i) precision) = true
  · have hc' := (Bool.and_eq_true (acc.1.kept.getD j false)
      (sdGT (acc.1.planes.getD j ⟨zeroV, 0⟩) (getP pts i) precision)) ▸ hc
    obtain ⟨hpl, hk, hnd, hmem⟩ := h
    have hjlt : j < acc.1.kept.length := by
      by_contra hge
      rw [getD_of_len_le _ _ _ (le_of_not_lt hge)] at hc'
      exact Bool.false_ne_true hc'.1
    have hjnd : j ∉ acc.1.dropped := fun hj =>
      Bool.noConfusion (hc'.1.symm.trans ((hmem j).1 hj).2)
    rw [scanStep_pos pts precision i acc j hc]
    refine ⟨hpl, by simp [hk], List.nodup_cons.2 ⟨hjnd, hnd⟩, fun x => ?_⟩
    constructor
    · intro hx
      rcases List.mem_cons.1 hx with rfl | hx'
      · rw [getD_set_self _ _ _ _ hjlt]
        exact ⟨by rw [← hk]; exact hjlt, rfl⟩
      · have hx'' := (hmem x).1 hx'
        have hne : x ≠ j := fun hxj => hjnd (hxj ▸ hx')
        rw [getD_set_ne _ _ _ _ _ hne]
        exact hx''
    · rintro ⟨hlt, hf⟩
      by_cases hxj : x = j
      · subst hxj
        exact List.mem_cons_self x _
      · rw [getD_set_ne _ _ _ _ _ hxj] at hf
        exact List.mem_cons_of_mem j ((hmem x).2 ⟨hlt, hf⟩)
  · rw [scanStep_neg pts precision i acc j hc]
    exact h

/-- The conflict scan preserves well-formedness. -/
theorem conflictScan_wf (pts : List Vec3) (precision : ℚ) (st : HullState) (i : ℤ)
    (h : StateWF st) : StateWF (conflictScan pts precision st i).1 := by
  unfold conflictScan
  exact foldl_inv (scanStep pts precision i) (fun acc => StateWF acc.1)
    (List.range st.triangles.length) (st, []) h
    (fun acc j hacc => scanStep_wf pts precision i acc j hacc)

/-- A fold of AddTri preserves well-formedness. -/
theorem foldl_addTri_wf (pts : List Vec3) (i : ℤ) (L : List IVec2) (st : HullState)
    (h : StateWF st) :
    StateWF (L.foldl (fun s e => addTri pts s e.x e.y i) st) :=
  foldl_inv _ StateWF L st h (fun s e hs => addTri_wf pts s e.x e.y i hs)

/-- Processing one point preserves well-formedness. -/
theorem processPoint_wf (pts : List Vec3) (precision : ℚ) (a b c d : ℤ)
    (st : HullState) (i : ℕ) (h : StateWF st) :
    StateWF (processPoint pts precision a b c d st i) := by
  unfold processPoint
  by_cases hskip : (i : ℤ) = a ∨ (i : ℤ) = b ∨ (i : ℤ) = c ∨ (i : ℤ) = d
  · rw [if_pos hskip]
    exact h
  · rw [if_neg hskip]
    rw [horizonPass_eq_foldl]
    exact foldl_addTri_wf pts (i : ℤ) _ _ (conflictScan_wf pts precision st (i : ℤ) h)

/-- The seed state is well formed. -/
theorem seedState_wf (pts : List Vec3) (precision : ℚ) :
    StateWF (seedState pts precision) := by
  unfold seedState
  exact addTri_wf _ _ _ _ _ (addTri_wf _ _ _ _ _ (addTri_wf _ _ _ _ _
    (addTri_wf _ _ _ _ _ emptyState_wf)))

/-- Any final state of the builder is well formed. -/
theorem hullFinal_wf (pts : List Vec3) (precision : ℚ) (st : HullState)
    (h : hullFinal pts precision = some st) : StateWF st := by
  unfold hullFinal at h
  by_cases h4 : pts.length < 4
  · rw [if_pos h4] at h
    exact absurd h (Option.noConfusion)
  · rw [if_neg h4] at h
    by_cases hcp : (NonCoplanar pts (candidatePlane pts precision) precision).1 < 0
    · rw [if_pos hcp] at h
      exact absurd h (Option.noConfusion)
    · rw [if_neg hcp] at h
      have := Option.some.inj h
      rw [← this]
      exact foldl_inv _ StateWF _ _ (seedState_wf pts precision)
        (fun s i hs => processPoint_wf pts precision _ _ _ _ s i hs)

/-- Compaction in slot order: the zip-filter-map of collectOut equals the
filter of live slot indices in increasing order, mapped to their
triangles. -/
theorem zip_filter_map :
    ∀ (ts : List IVec3) (ks : List Bool), ks.length = ts.length →
      ((ts.zip ks).filter (fun tk => tk.2)).map (fun tk => tk.1) =
      ((List.range ts.length).filter (fun j => ks.getD j false)).map
        (fun j => ts.getD j ⟨0, 0, 0⟩) := by
  intro ts
  induction ts with
  | nil => intro ks h; simp
  | cons t ts' ih =>
      intro ks h
      cases ks with
      | nil => simp at h
      | cons k ks' =>
          have hlen : ks'.length = ts'.length := by simpa using h
          have hr : List.range (ts'.length + 1) =
              0 :: (List.range ts'.length).map Nat.succ := List.range_succ_eq_map _
          simp only [List.zip_cons_cons, List.filter_cons, List.length_cons, hr,
            List.filter_map]
          have hcomp : ((fun j => (k :: ks').getD j false) ∘ Nat.succ) =
              (fun j => ks'.getD j false) := by
            funext j
            simp [Function.comp, List.getD_cons_succ]
          have hfc : List.filter ((fun j => (k :: ks').getD j false) ∘ Nat.succ)
              (List.range ts'.length) =
              List.filter (fun j => ks'.getD j false) (List.range ts'.length) :=
            List.filter_congr (fun a _ => rfl)
          have hmc : List.map ((fun j => (t :: ts').getD j ⟨0, 0, 0⟩) ∘ Nat.succ)
              (List.filter (fun j => ks'.getD j false) (List.range ts'.length)) =
              List.map (fun j => ts'.getD j ⟨0, 0, 0⟩)
                (List.filter (fun j => ks'.getD j false) (List.range ts'.length)) :=
            List.map_congr_left (fun a _ => rfl)
          cases k with
          | false =>
              simp only [List.zip_cons_cons, List.filter_cons, List.length_cons, hr,
                List.filter_map, List.map_map, hfc, hmc, List.getD_cons_zero]
              simp [ih ks' hlen]
          | true =>
              simp only [List.zip_cons_cons, List.filter_cons, List.length_cons, hr,
                List.filter_map, List.map_map, hfc, hmc, List.getD_cons_zero]
              simp [ih ks' hlen]

/-- Fold invariant preservation, with membership of the consumed element. -/
theorem foldl_inv_mem {α β : Type} (f : β → α → β) (P : β → Prop) :
    ∀ (l : List α) (b : β), P b → (∀ b' a, a ∈ l → P b' → P (f b' a)) →
      P (l.foldl f b) := by
  intro l
  induction l with
  | nil => intro b hb _; exact hb
  | cons a r ih =>
      intro b hb hs
      exact ih _ (hs _ _ (List.mem_cons_self a r) hb)
        (fun b' x hx hb' => hs b' x (List.mem_cons_of_mem a hx) hb')

/-- The output compaction in increasing slot order. -/
theorem collectOut_eq (st : HullState) (h : st.kept.length = st.triangles.length) :
    collectOut st =
      ((List.range st.triangles.length).filter (fun j => st.kept.getD j false)).map
        (fun j => st.triangles.getD j ⟨0, 0, 0⟩) :=
  zip_filter_map st.triangles st.kept h

/-- AddTri preserves a row property when the written row satisfies it. -/
theorem addTri_rows (Q : IVec3 → Plane → Prop) (pts : List Vec3) (st : HullState)
    (a b c : ℤ) (hwf : StateWF st) (h : rowsOK Q st)
    (hw : Q ⟨c, b, a⟩ (PlaneOfPts (getP pts a) (getP pts b) (getP pts c))) :
    rowsOK Q (addTri pts st a b c) := by
  obtain ⟨hpl, hk, _, hmem⟩ := hwf
  cases hd : st.dropped with
  | cons idx rest =>
      have hidx : idx < st.triangles.length :=
        ((hmem idx).1 (by rw [hd]; exact List.mem_cons_self idx rest)).1
      rw [addTri_cons pts st a b c idx rest hd]
      intro j hj
      simp only [List.length_set] at hj
      by_cases hji : j = idx
      · subst hji
        rw [getD_set_self _ _ _ _ hj, getD_set_self _ _ _ _ (by rw [hpl]; exact hj)]
        exact hw
      · rw [getD_set_ne _ _ _ _ _ hji, getD_set_ne _ _ _ _ _ hji]
        exact h j hj

  | nil =>
      rw [addTri_nil pts st a b c hd]
      intro j hj
      simp only [List.length_append, List.length_singleton] at hj
      rcases lt_or_eq_of_le (Nat.le_of_lt_succ hj) with hlt | heq
      · rw [List.getD_append _ _ _ _ hlt, List.getD_append _ _ _ _ (by rw [hpl]; exact hlt)]
        exact h j hlt
      · rw [heq, getD_append_self, show st.triangles.length = st.planes.length
          from hpl.symm, getD_append_self]
        exact hw

/-- The horizon fold preserves a row property when every written row
satisfies it. -/
theorem foldl_addTri_rows (Q : IVec3 → Plane → Prop) (pts : List Vec3) (i : ℤ)
    (L : List IVec2) (st : HullState) (hwf : StateWF st) (h : rowsOK Q st)
    (hw : ∀ e ∈ L, Q ⟨i, e.y, e.x⟩
      (PlaneOfPts (getP pts e.x) (getP pts e.y) (getP pts i))) :
    rowsOK Q (L.foldl (fun s e => addTri pts s e.x e.y i) st) := by
  have := foldl_inv_mem (fun s e => addTri pts s e.x e.y i)
    (fun s => StateWF s ∧ rowsOK Q s) L st ⟨hwf, h⟩
    (fun s e he hs => ⟨addTri_wf pts s e.x e.y i hs.1,
      addTri_rows Q pts s e.x e.y i hs.1 hs.2 (hw e he)⟩)
  exact this.2

/-- The conflict scan preserves any row property (rows are untouched). -/
theorem conflictScan_rows (Q : IVec3 → Plane → Prop) (pts : List Vec3)
    (precision : ℚ) (st : HullState) (i : ℤ) (h : rowsOK Q st) :
    rowsOK Q (conflictScan pts precision st i).1 := by
  obtain ⟨h1, h2⟩ := conflictScan_fst pts precision st i
  unfold rowsOK
  rw [h1, h2]
  exact h

/-- Every live slot after the horizon fold is either a surviving slot (live
before, with triangle and plane unchanged) or a freshly written face of the
form AddTri(e.x, e.y, i) for one of the folded edges. -/
theorem foldl_addTri_kept (pts : List Vec3) (i : ℤ) :
    ∀ (L : List IVec2) (st : HullState), StateWF st →
      ∀ j : ℕ,
        (L.foldl (fun s e => addTri pts s e.x e.y i) st).kept.getD j false = true →
        (st.kept.getD j false = true ∧
          (L.foldl (fun s e => addTri pts s e.x e.y i) st).triangles.getD j ⟨0,0,0⟩ =
            st.triangles.getD j ⟨0,0,0⟩ ∧
          (L.foldl (fun s e => addTri pts s e.x e.y i) st).planes.getD j ⟨zeroV,0⟩ =
            st.planes.getD j ⟨zeroV,0⟩) ∨
        (∃ e ∈ L,
          (L.foldl (fun s e => addTri pts s e.x e.y i) st).triangles.getD j ⟨0,0,0⟩ =
            ⟨i, e.y, e.x⟩ ∧
          (L.foldl (fun s e => addTri pts s e.x e.y i) st).planes.getD j ⟨zeroV,0⟩ =
            PlaneOfPts (getP pts e.x) (getP pts e.y) (getP pts i)) := by
  intro L
  induction L with
  | nil => intro st _ j hj; exact Or.inl ⟨hj, rfl, rfl⟩
  | cons e L' ih =>
      intro st hwf j hj
      rw [List.foldl_cons] at hj ⊢
      have hwf' : StateWF (addTri pts st e.x e.y i) := addTri_wf pts st e.x e.y i hwf
      obtain ⟨hpl, hk, hnd, hmem⟩ := hwf
      rcases ih (addTri pts st e.x e.y i) hwf' j hj with ⟨hkept', htri', hpl'⟩ | ⟨e', he', h1, h2⟩
      · -- survivor of the tail fold: split on whether this addTri wrote slot j
        cases hd : st.dropped with
        | cons idx rest =>
            have hidx : idx < st.triangles.length :=
              ((hmem idx).1 (by rw [hd]; exact List.mem_cons_self idx rest)).1
            by_cases hji : j = idx
            · subst hji
              refine Or.inr ⟨e, List.mem_cons_self e L', ?_, ?_⟩
              · rw [htri', addTri_cons pts st e.x e.y i j rest hd,
                  getD_set_self _ _ _ _ hidx]
              · rw [hpl', addTri_cons pts st e.x e.y i j rest hd,
                  getD_set_self _ _ _ _ (by rw [hpl]; exact hidx)]
            · refine Or.inl ⟨?_, ?_, ?_⟩
              · rw [addTri_cons pts st e.x e.y i idx rest hd] at hkept'
                rw [← getD_set_ne st.kept idx j true false hji]
                exact hkept'
              · rw [htri', addTri_cons pts st e.x e.y i idx rest hd,
                  getD_set_ne _ _ _ _ _ hji]
              · rw [hpl', addTri_cons pts st e.x e.y i idx rest hd,
                  getD_set_ne _ _ _ _ _ hji]
        | nil =>
            rw [addTri_nil pts st e.x e.y i hd] at hkept' htri' hpl' ⊢
            rcases lt_trichotomy j st.kept.length with hlt | heq | hgt
            · refine Or.inl ⟨?_, ?_, ?_⟩
              · rw [← List.getD_append st.kept [true] false j hlt]
                exact hkept'
              · rw [htri', List.getD_append _ _ _ _ (by rw [← hk]; exact hlt)]
              · rw [hpl', List.getD_append _ _ _ _ (by rw [hpl, ← hk]; exact hlt)]
            · refine Or.inr ⟨e, List.mem_cons_self e L', ?_, ?_⟩
              · rw [htri', heq, hk, getD_append_self]
              · rw [hpl', heq, hk, ← hpl, getD_append_self]
            · exfalso
              rw [getD_of_len_le _ _ _ (by simp; omega)] at hkept'
              exact Bool.noConfusion hkept'
      · exact Or.inr ⟨e', List.mem_cons_of_mem e he', h1, h2⟩

/-! Seed-selection lemmas. -/

/-- Perpendicular offsets are nonnegative. -/
theorem perpOffsetSq_nonneg (p u : Vec3) (q : ℚ) : 0 ≤ perpOffsetSq p u q :=
  normSq_nonneg _

/-- The furthest point has perpendicular offset exactly zero from the line
through point 0 and itself. -/
theorem perpOffsetSq_opp (A B : Vec3) (q : ℚ) (hq : q ≠ 0)
    (h : q = normSq (B - A)) : perpOffsetSq (B - A) (A - B) q = 0 := by
  have hdot : dotV (B - A) (A - B) = -q := by
    rw [h]; simp only [dotV, normSq, Vec3.sub_def]; ring
  unfold perpOffsetSq
  rw [hdot]
  have hdiv : -q / q = -1 := by field_simp
  rw [hdiv]
  simp only [normSq, dotV, scaleV, Vec3.sub_def]
  ring

/-- A zero offset never beats a nonnegative running offset. -/
theorem gtCSqrt_zero_false (c s : ℚ) (hc : 0 ≤ c) (hs : 0 ≤ s) :
    gtCSqrt 0 c s = false := by
  unfold gtCSqrt
  rw [if_pos hc]
  simp only [decide_eq_false_iff_not, not_lt]
  nlinarith

/-- Shape of the non-collinear triple: either the failure sentinel, or a
triple (0, f, t) with both f and t genuine indices from 1 on and f distinct
from t. -/
theorem NonCollinearTriple_cases (pts : List Vec3) (prec : ℚ) (hp : 0 ≤ prec)
    (hlen : 2 ≤ pts.length) :
    NonCollinearTriple pts prec = ⟨-1, -1, -1⟩ ∨
    ∃ f t : ℕ, NonCollinearTriple pts prec = ⟨0, (f : ℤ), (t : ℤ)⟩ ∧
      1 ≤ f ∧ f < pts.length ∧ 1 ≤ t ∧ t < pts.length ∧ f ≠ t := by
  simp only [NonCollinearTriple]
  set p0 := getP pts 0 with hp0
  set fd := (List.range' 2 (pts.length - 2)).foldl
    (fun (fd : ℕ × ℚ) (i : ℕ) =>
      let dSq := normSq (getP pts (i : ℤ) - p0)
      if fd.2 < dSq then (i, dSq) else fd)
    (1, normSq (getP pts 1 - p0)) with hfd
  have hfdP : (1 ≤ fd.1 ∧ fd.1 < pts.length) ∧
      fd.2 = normSq (getP pts (fd.1 : ℤ) - p0) := by
    rw [hfd]
    refine foldl_inv_mem _
      (fun (b : ℕ × ℚ) => (1 ≤ b.1 ∧ b.1 < pts.length) ∧
        b.2 = normSq (getP pts (b.1 : ℤ) - p0)) _ _
      ⟨⟨le_refl 1, by omega⟩, rfl⟩ ?_
    intro b i hi hb
    obtain ⟨k, hk, rfl⟩ := List.mem_range'.1 hi
    dsimp only
    by_cases hlt : b.2 < normSq (getP pts ((2 + 1 * k : ℕ) : ℤ) - p0)
    · simp only [if_pos hlt]
      exact ⟨⟨by omega, by omega⟩, by trivial⟩
    · simp only [if_neg hlt]
      exact hb
  by_cases hg : (decide (0 ≤ prec) && decide (fd.2 ≤ prec * prec)) = true
  · rw [if_pos hg]
    exact Or.inl rfl
  · rw [if_neg hg]
    have hfd2 : prec * prec < fd.2 := by
      by_contra hle
      exact hg (by rw [decide_eq_true hp, decide_eq_true (not_lt.1 hle)]; rfl)
    have hq0 : fd.2 ≠ 0 := by nlinarith
    set u := p0 - getP pts (fd.1 : ℤ) with hu
    set third := (List.range' 1 (pts.length - 1)).foldl
      (fun (th : ℤ × ℚ × ℚ) (i : ℕ) =>
        let rSq := perpOffsetSq (getP pts (i : ℤ) - p0) u fd.2
        if gtCSqrt rSq th.2.1 th.2.2 then ((i : ℤ), 1, rSq) else th)
      (-1, prec, fd.2) with hthird
    have hthP : 0 ≤ third.2.1 ∧ 0 ≤ third.2.2 ∧
        (third.1 = -1 ∨ ∃ j : ℕ, third.1 = (j : ℤ) ∧ 1 ≤ j ∧ j < pts.length ∧
          j ≠ fd.1) := by
      rw [hthird]
      refine foldl_inv_mem _
        (fun (b : ℤ × ℚ × ℚ) => 0 ≤ b.2.1 ∧ 0 ≤ b.2.2 ∧
          (b.1 = -1 ∨ ∃ j : ℕ, b.1 = (j : ℤ) ∧ 1 ≤ j ∧ j < pts.length ∧ j ≠ fd.1))
        _ _ ⟨hp, by show 0 ≤ fd.2; rw [hfdP.2]; exact normSq_nonneg _, Or.inl rfl⟩ ?_
      intro b i hi hb
      obtain ⟨k, hk, rfl⟩ := List.mem_range'.1 hi
      dsimp only
      by_cases hgt : gtCSqrt (perpOffsetSq (getP pts ((1 + 1 * k : ℕ) : ℤ) - p0) u fd.2)
          b.2.1 b.2.2 = true
      · simp only [if_pos hgt]
        refine ⟨zero_le_one, perpOffsetSq_nonneg _ _ _, Or.inr ⟨1 + 1 * k, rfl,
          by omega, by omega, ?_⟩⟩
        intro hif
        rw [hif] at hgt
        rw [hu, perpOffsetSq_opp p0 (getP pts (fd.1 : ℤ)) fd.2 hq0 hfdP.2] at hgt
        rw [gtCSqrt_zero_false b.2.1 b.2.2 hb.1 hb.2.1] at hgt
        exact Bool.noConfusion hgt
      · simp only [if_neg hgt]
        exact hb
    by_cases hneg : third.1 < 0
    · rw [if_pos hneg]
      exact Or.inl rfl
    · rw [if_neg hneg]
      right
      rcases hthP.2.2 with h1 | ⟨j, hj1, hj2, hj3, hj4⟩
      · exact absurd (h1 ▸ (by norm_num : (-1 : ℤ) < 0)) hneg
      · exact ⟨fd.1, j, by rw [hj1], hfdP.1.1, hfdP.1.2, hj2, hj3,
          fun hft => hj4 (hft.symm)⟩

/-- A point with zero distance numerator is never counted as off-plane for
a nonnegative precision. -/
theorem absSdGT_zero (pl : Plane) (p : Vec3) (prec : ℚ) (hp : 0 ≤ prec)
    (hs : sdNum pl p = 0) : absSdGT pl p prec = false := by
  have hm := normSq_nonneg pl.n
  simp only [absSdGT, hs]
  split
  · simp [not_lt.2 hp]
  · simp only [Bool.or_eq_false_iff, decide_eq_false_iff_not, not_lt]
    exact ⟨hp, by nlinarith⟩

/-- Shape of NonCoplanar: either the sentinel pair, or the first off-plane
index together with its side. -/
theorem NonCoplanar_cases (pts : List Vec3) (pl : Plane) (prec : ℚ) :
    NonCoplanar pts pl prec = (-1, false) ∨
    ∃ i : ℕ, i < pts.length ∧
      NonCoplanar pts pl prec = ((i : ℤ), sdGT pl (getP pts (i : ℤ)) prec) ∧
      absSdGT pl (getP pts (i : ℤ)) prec = true := by
  unfold NonCoplanar
  cases hf : (List.range pts.length).find?
      (fun (i : ℕ) => absSdGT pl (getP pts (i : ℤ)) prec) with
  | none => exact Or.inl rfl
  | some k =>
      refine Or.inr ⟨k, List.mem_range.1 (List.mem_of_find?_eq_some hf), rfl, ?_⟩
      have hps := @List.find?_some ℕ
        (fun (i : ℕ) => absSdGT pl (getP pts (i : ℤ)) prec) k
        (List.range pts.length) hf
      exact hps

/-- The null plane produced by the sentinel reads: all distances vanish, so
NonCoplanar fails whenever the precision is nonnegative. -/
theorem NonCoplanar_null (pts : List Vec3) (prec : ℚ) (hp : 0 ≤ prec) :
    NonCoplanar pts ⟨zeroV, 0⟩ prec = (-1, false) := by
  unfold NonCoplanar
  have hnone : (List.range pts.length).find?
      (fun (i : ℕ) => absSdGT ⟨zeroV, 0⟩ (getP pts (i : ℤ)) prec) = none := by
    rw [List.find?_eq_none]
    intro i _
    have : sdNum ⟨zeroV, 0⟩ (getP pts (i : ℤ)) = 0 := by
      simp [sdNum, dotV, zeroV]
    rw [absSdGT_zero _ _ _ hp this]
    exact Bool.noConfusion
  rw [hnone]

/-- When the non-collinear triple is the sentinel, the candidate plane is
built from three out-of-bounds reads and is the null plane. -/
theorem candidatePlane_sentinel (pts : List Vec3) (prec : ℚ)
    (h : NonCollinearTriple pts prec = ⟨-1, -1, -1⟩) :
    candidatePlane pts prec = ⟨zeroV, 0⟩ := by
  unfold candidatePlane
  rw [h]
  have hg : getP pts (-1) = zeroV := by
    unfold getP
    rw [if_neg (by norm_num)]
  show PlaneOfPts (getP pts (-1)) (getP pts (-1)) (getP pts (-1)) = _
  rw [hg]
  unfold PlaneOfPts
  have hz : zeroV - zeroV = zeroV := by
    apply Vec3.ext' <;> simp [zeroV, Vec3.sub_def]
  rw [hz]
  have hc : crossV zeroV zeroV = zeroV := by
    apply Vec3.ext' <;> simp [crossV, zeroV]
  rw [hc]
  have hd : dotV zeroV zeroV = 0 := by simp [dotV, zeroV]
  rw [hd]

/-- A conflict requires a genuinely positive distance numerator when the
precision is nonnegative. -/
theorem sdGT_true_pos (pl : Plane) (p : Vec3) (prec : ℚ) (hp : 0 ≤ prec)
    (h : sdGT pl p prec = true) : 0 < sdNum pl p ∧ normSq pl.n ≠ 0 ∧
      prec * prec * normSq pl.n < sdNum pl p * sdNum pl p := by
  by_cases hz : normSq pl.n = 0
  · exfalso
    simp only [sdGT, if_pos hz, decide_eq_true_eq] at h
    exact not_lt.2 hp h
  · simp only [sdGT, if_neg hz, if_pos hp, Bool.and_eq_true, decide_eq_true_eq] at h
    exact ⟨h.1, hz, h.2⟩

/-- An off-plane point that is not in front is strictly behind: negative
distance numerator. -/
theorem sdGT_false_neg (pl : Plane) (p : Vec3) (prec : ℚ) (hp : 0 ≤ prec)
    (habs : absSdGT pl p prec = true) (h : sdGT pl p prec = false) :
    sdNum pl p < 0 := by
  by_cases hz : normSq pl.n = 0
  · exfalso
    simp only [absSdGT, if_pos hz, decide_eq_true_eq] at habs
    exact not_lt.2 hp habs
  · simp only [absSdGT, if_neg hz, Bool.or_eq_true, decide_eq_true_eq] at habs
    rcases habs with habs | habs
    · exact absurd habs (not_lt.2 hp)
    · simp only [sdGT, if_neg hz, if_pos hp] at h
      by_contra hge
      push_neg at hge
      have hs0 : sdNum pl p ≠ 0 := by
        intro h0
        rw [h0] at habs
        nlinarith [normSq_nonneg pl.n]
      have hpos : 0 < sdNum pl p := lt_of_le_of_ne hge (Ne.symm hs0)
      rw [decide_eq_true hpos, decide_eq_true habs] at h
      exact Bool.noConfusion h

/-! Hull-level helper lemmas. -/

/-- Fewer than 4 points: no builder state. -/
theorem hullFinal_of_short (pts : List Vec3) (prec : ℚ) (h : pts.length < 4) :
    hullFinal pts prec = none := by
  unfold hullFinal
  rw [if_pos h]

/-- NonCoplanar failure: no builder state. -/
theorem hullFinal_of_noncop (pts : List Vec3) (prec : ℚ) (h4 : ¬ pts.length < 4)
    (h : (NonCoplanar pts (candidatePlane pts prec) prec).1 < 0) :
    hullFinal pts prec = none := by
  unfold hullFinal
  rw [if_neg h4, if_pos h]

/-- The builder state when both guards pass. -/
theorem hullFinal_eq_some (pts : List Vec3) (prec : ℚ) (h4 : ¬ pts.length < 4)
    (h : ¬ (NonCoplanar pts (candidatePlane pts prec) prec).1 < 0) :
    hullFinal pts prec = some ((List.range pts.length).foldl
      (processPoint pts prec (seedIdx pts prec).a (seedIdx pts prec).b
        (seedIdx pts prec).c (seedIdx pts prec).d) (seedState pts prec)) := by
  simp only [hullFinal]
  rw [if_neg h4, if_neg h]

/-- No builder state means an empty result. -/
theorem Hull_empty_of_none (pts : List Vec3) (prec : ℚ)
    (h : hullFinal pts prec = none) : Hull pts prec = [] := by
  unfold Hull
  rw [h]
  rfl

/-- The point being added lies exactly on each face created for it. -/
theorem sdGT_zero (pl : Plane) (p : Vec3) (prec : ℚ) (hp : 0 ≤ prec)
    (hs : sdNum pl p = 0) : sdGT pl p prec = false := by
  by_cases hz : normSq pl.n = 0
  · simp [sdGT, hz, not_lt.2 hp]
  · simp only [sdGT, if_neg hz, if_pos hp, hs]
    simp

/-- Unfolding of processPoint for a non-seed point: the conflict scan
followed by the horizon loop, which is the AddTri fold over exactly the
collected edges whose reverse was not collected. -/
theorem processPoint_horizon (pts : List Vec3) (prec : ℚ) (a b c d : ℤ)
    (st : HullState) (i : ℕ)
    (hskip : ¬ ((i : ℤ) = a ∨ (i : ℤ) = b ∨ (i : ℤ) = c ∨ (i : ℤ) = d)) :
    processPoint pts prec a b c d st i =
      ((conflictScan pts prec st (i : ℤ)).2.filter
        (fun e => decide (revE e ∉ (conflictScan pts prec st (i : ℤ)).2))).foldl
        (fun s e => addTri pts s e.x e.y (i : ℤ))
        (conflictScan pts prec st (i : ℤ)).1 := by
  unfold processPoint
  rw [if_neg hskip]
  rw [horizonPass_eq_foldl,
    horizonCreated_eq _ (conflictScan_edges pts prec st (i : ℤ)).1]

/-- After a non-seed point is processed, every live face has the processed
point on or behind its plane within the tolerance: surviving faces passed
the conflict test, and freshly created faces contain the point exactly on
their plane. -/
theorem processPoint_behind (pts : List Vec3) (prec : ℚ) (a b c d : ℤ)
    (st : HullState) (i : ℕ) (hp : 0 ≤ prec) (hwf : StateWF st)
    (hskip : ¬ ((i : ℤ) = a ∨ (i : ℤ) = b ∨ (i : ℤ) = c ∨ (i : ℤ) = d)) :
    ∀ j : ℕ, (processPoint pts prec a b c d st i).kept.getD j false = true →
      sdGT ((processPoint pts prec a b c d st i).planes.getD j ⟨zeroV, 0⟩)
        (getP pts (i : ℤ)) prec = false := by
  intro j hj
  rw [processPoint_horizon pts prec a b c d st i hskip] at hj ⊢
  have hwf' : StateWF (conflictScan pts prec st (i : ℤ)).1 :=
    conflictScan_wf pts prec st (i : ℤ) hwf
  rcases foldl_addTri_kept pts (i : ℤ) _ _ hwf' j hj with
    ⟨hkept, _, hplanes⟩ | ⟨e, _, _, hplanes⟩
  · rw [hplanes]
    rw [conflictScan_kept pts prec st (i : ℤ) j] at hkept
    have hk1 : st.kept.getD j false = true := ((Bool.and_eq_true _ _) ▸ hkept).1
    have hk2 := ((Bool.and_eq_true _ _) ▸ hkept).2
    have hjlt : j < st.triangles.length := by
      have : j < st.kept.length := by
        by_contra hge
        rw [getD_of_len_le _ _ _ (le_of_not_lt hge)] at hk1
        exact Bool.noConfusion hk1
      rw [hwf.2.1] at this
      exact this
    have hsc := (conflictScan_fst pts prec st (i : ℤ)).2
    rw [hsc]
    cases hb : sdGT (st.planes.getD j ⟨zeroV, 0⟩) (getP pts (i : ℤ)) prec with
    | false => rfl
    | true =>
        exfalso
        rw [decide_eq_true hjlt, hb] at hk2
        exact Bool.noConfusion hk2
  · rw [hplanes]
    exact sdGT_zero _ _ _ hp (sdNum_self_c _ _ _)

/-! Real-side lemmas for the specification-level degeneracy predicates. -/

/-- A nonzero rational vector has positive squared norm. -/
theorem normSq_pos (v : Vec3) (h : v ≠ zeroV) : 0 < normSq v := by
  rcases lt_or_eq_of_le (normSq_nonneg v) with hlt | heq
  · exact hlt
  · exfalso
    apply h
    have hx : v.x * v.x = 0 := by
      simp only [normSq, dotV] at heq
      nlinarith [mul_self_nonneg v.x, mul_self_nonneg v.y, mul_self_nonneg v.z]
    have hy : v.y * v.y = 0 := by
      simp only [normSq, dotV] at heq
      nlinarith [mul_self_nonneg v.x, mul_self_nonneg v.y, mul_self_nonneg v.z]
    have hz : v.z * v.z = 0 := by
      simp only [normSq, dotV] at heq
      nlinarith [mul_self_nonneg v.x, mul_self_nonneg v.y, mul_self_nonneg v.z]
    exact Vec3.ext' (mul_self_eq_zero.1 hx) (mul_self_eq_zero.1 hy)
      (mul_self_eq_zero.1 hz)

/-- The real squared norm of an embedded rational vector. -/
theorem normSqR_toR (v : Vec3) : normSqR (toR v) = ((normSq v : ℚ) : ℝ) := by
  simp only [normSqR, toR, dotR, normSq, dotV]
  push_cast
  ring

/-- The negated plane has negated distance numerators. -/
theorem sdNum_negPlane (n : Vec3) (w : ℚ) (p : Vec3) :
    sdNum ⟨⟨-n.x, -n.y, -n.z⟩, -w⟩ p = -(sdNum ⟨n, w⟩ p) := by
  simp only [sdNum, dotV]
  ring

/-- When both guards of Hull pass a nonnegative precision, the seed
quadruple consists of four pairwise distinct valid indices: a is point 0,
b and c are the two in-plane indices (in one of the two orders), and d is
off the candidate plane. -/
theorem seedIdx_props (pts : List Vec3) (prec : ℚ) (hp : 0 ≤ prec)
    (h4 : ¬ pts.length < 4)
    (hdc : ¬ (NonCoplanar pts (candidatePlane pts prec) prec).1 < 0) :
    (0 ≤ (seedIdx pts prec).a ∧ (seedIdx pts prec).a < pts.length) ∧
    (0 ≤ (seedIdx pts prec).b ∧ (seedIdx pts prec).b < pts.length) ∧
    (0 ≤ (seedIdx pts prec).c ∧ (seedIdx pts prec).c < pts.length) ∧
    (0 ≤ (seedIdx pts prec).d ∧ (seedIdx pts prec).d < pts.length) ∧
    (seedIdx pts prec).a ≠ (seedIdx pts prec).b ∧
    (seedIdx pts prec).a ≠ (seedIdx pts prec).c ∧
    (seedIdx pts prec).a ≠ (seedIdx pts prec).d ∧
    (seedIdx pts prec).b ≠ (seedIdx pts prec).c ∧
    (seedIdx pts prec).b ≠ (seedIdx pts prec).d ∧
    (seedIdx pts prec).c ≠ (seedIdx pts prec).d := by
  rcases NonCollinearTriple_cases pts prec hp (by omega) with hsent | ⟨f, t, htrip, hf1, hf2, ht1, ht2, hft⟩
  · exfalso
    apply hdc
    rw [candidatePlane_sentinel pts prec hsent, NonCoplanar_null pts prec hp]
    norm_num
  · rcases NonCoplanar_cases pts (candidatePlane pts prec) prec with hnone | ⟨dn, hdn, heq, habs⟩
    · exfalso
      apply hdc
      rw [hnone]
      norm_num
    · have hcand : candidatePlane pts prec =
          PlaneOfPts (getP pts 0) (getP pts (f : ℤ)) (getP pts (t : ℤ)) := by
        unfold candidatePlane
        rw [htrip]
      have hdn0 : dn ≠ 0 := by
        intro h0
        rw [h0, hcand] at habs
        rw [Nat.cast_zero] at habs
        rw [absSdGT_zero _ _ _ hp (sdNum_self_a _ _ _)] at habs
        exact Bool.noConfusion habs
      have hdnf : dn ≠ f := by
        intro h0
        rw [h0, hcand] at habs
        rw [absSdGT_zero _ _ _ hp (sdNum_self_b _ _ _)] at habs
        exact Bool.noConfusion habs
      have hdnt : dn ≠ t := by
        intro h0
        rw [h0, hcand] at habs
        rw [absSdGT_zero _ _ _ hp (sdNum_self_c _ _ _)] at habs
        exact Bool.noConfusion habs
      have hs : seedIdx pts prec =
          ⟨0, if (NonCoplanar pts (candidatePlane pts prec) prec).2 then (t : ℤ) else (f : ℤ),
            if (NonCoplanar pts (candidatePlane pts prec) prec).2 then (f : ℤ) else (t : ℤ),
            (dn : ℤ)⟩ := by
        unfold seedIdx
        rw [htrip, heq]
      rw [hs]
      by_cases hflag : (NonCoplanar pts (candidatePlane pts prec) prec).2
      · simp only [if_pos hflag]
        refine ⟨⟨by norm_num, by omega⟩, ⟨by omega, by omega⟩, ⟨by omega, by omega⟩,
          ⟨by omega, by omega⟩, ?_, ?_, ?_, ?_, ?_, ?_⟩ <;> omega
      · simp only [if_neg hflag]
        refine ⟨⟨by norm_num, by omega⟩, ⟨by omega, by omega⟩, ⟨by omega, by omega⟩,
          ⟨by omega, by omega⟩, ?_, ?_, ?_, ?_, ?_, ?_⟩ <;> omega

/-- Every row of any reachable face table was produced by some AddTri
call: the stored triangle is the reversal of the argument order whose
plane is stored beside it. -/
theorem hull_rows_faceOK (pts : List Vec3) (prec : ℚ) (st : HullState)
    (h : hullFinal pts prec = some st) : rowsOK (FaceOK pts) st := by
  unfold hullFinal at h
  by_cases h4 : pts.length < 4
  · rw [if_pos h4] at h
    exact absurd h (Option.noConfusion)
  · rw [if_neg h4] at h
    by_cases hcp : (NonCoplanar pts (candidatePlane pts prec) prec).1 < 0
    · rw [if_pos hcp] at h
      exact absurd h (Option.noConfusion)
    · rw [if_neg hcp] at h
      have hsome := Option.some.inj h
      rw [← hsome]
      have hseed : StateWF (seedState pts prec) ∧ rowsOK (FaceOK pts) (seedState pts prec) := by
        constructor
        · exact seedState_wf pts prec
        · unfold seedState
          refine addTri_rows _ pts _ _ _ _ (addTri_wf _ _ _ _ _ (addTri_wf _ _ _ _ _
            (addTri_wf _ _ _ _ _ emptyState_wf))) ?_ ⟨_, _, _, rfl, rfl⟩
          refine addTri_rows _ pts _ _ _ _ (addTri_wf _ _ _ _ _
            (addTri_wf _ _ _ _ _ emptyState_wf)) ?_ ⟨_, _, _, rfl, rfl⟩
          refine addTri_rows _ pts _ _ _ _ (addTri_wf _ _ _ _ _ emptyState_wf) ?_
            ⟨_, _, _, rfl, rfl⟩
          refine addTri_rows _ pts _ _ _ _ emptyState_wf ?_ ⟨_, _, _, rfl, rfl⟩
          intro j hj
          simp [emptyState] at hj
      have hmain := foldl_inv (processPoint pts prec (seedIdx pts prec).a
          (seedIdx pts prec).b (seedIdx pts prec).c (seedIdx pts prec).d)
        (fun s => StateWF s ∧ rowsOK (FaceOK pts) s) (List.range pts.length)
        (seedState pts prec) hseed ?_
      · exact hmain.2
      · intro s i hs
        constructor
        · exact processPoint_wf pts prec _ _ _ _ s i hs.1
        · by_cases hskip : ((i : ℤ) = (seedIdx pts prec).a ∨ (i : ℤ) = (seedIdx pts prec).b ∨
            (i : ℤ) = (seedIdx pts prec).c ∨ (i : ℤ) = (seedIdx pts prec).d)
          · unfold processPoint
            rw [if_pos hskip]
            exact hs.2
          · rw [processPoint_horizon pts prec _ _ _ _ s i hskip]
            exact foldl_addTri_rows (FaceOK pts) pts (i : ℤ) _ _
              (conflictScan_wf pts prec s (i : ℤ) hs.1)
              (conflictScan_rows (FaceOK pts) pts prec s (i : ℤ) hs.2)
              (fun e _ => ⟨_, _, _, rfl, rfl⟩)

/-- The seed-or-processed vertex sets grow with the bound. -/
theorem vset_mono (a b c d : ℤ) {m m' : ℤ} (h : m ≤ m') :
    {v : ℤ | v = a ∨ v = b ∨ v = c ∨ v = d ∨ (0 ≤ v ∧ v < m)} ⊆
      {v : ℤ | v = a ∨ v = b ∨ v = c ∨ v = d ∨ (0 ≤ v ∧ v < m')} := by
  intro v hv
  simp only [Set.mem_setOf_eq] at hv ⊢
  omega

/-- VertOK is monotone in the vertex set. -/
theorem VertOK_mono {V W : Set ℤ} (h : V ⊆ W) (t : IVec3) :
    VertOK V t → VertOK W t :=
  fun ⟨h1, h2, h3, h4, h5, h6⟩ => ⟨h h1, h h2, h h3, h4, h5, h6⟩

/-- rowsOK is monotone in the row property. -/
theorem rowsOK_mono {Q Q' : IVec3 → Plane → Prop} (h : ∀ t p, Q t p → Q' t p)
    (st : HullState) : rowsOK Q st → rowsOK Q' st :=
  fun hr j hj => h _ _ (hr j hj)

/-- The four seed faces have pairwise-distinct vertices drawn from the seed
quadruple, provided both guards of Hull passed. -/
theorem seedState_rows_vert (pts : List Vec3) (prec : ℚ) (hp : 0 ≤ prec)
    (h4 : ¬ pts.length < 4)
    (hdc : ¬ (NonCoplanar pts (candidatePlane pts prec) prec).1 < 0) :
    rowsOK (fun t _ => VertOK {v : ℤ | v = (seedIdx pts prec).a ∨
      v = (seedIdx pts prec).b ∨ v = (seedIdx pts prec).c ∨
      v = (seedIdx pts prec).d ∨ (0 ≤ v ∧ v < (0 : ℤ))} t)
      (seedState pts prec) := by
  obtain ⟨-, -, -, -, hab, hac, had, hbc, hbd, hcd⟩ := seedIdx_props pts prec hp h4 hdc
  unfold seedState
  refine addTri_rows _ pts _ _ _ _ (addTri_wf _ _ _ _ _ (addTri_wf _ _ _ _ _
    (addTri_wf _ _ _ _ _ emptyState_wf))) ?_
    ⟨Or.inr (Or.inr (Or.inl rfl)), Or.inr (Or.inr (Or.inr (Or.inl rfl))),
      Or.inr (Or.inl rfl), hcd, Ne.symm hbc, Ne.symm hbd⟩
  refine addTri_rows _ pts _ _ _ _ (addTri_wf _ _ _ _ _
    (addTri_wf _ _ _ _ _ emptyState_wf)) ?_
    ⟨Or.inl rfl, Or.inr (Or.inr (Or.inr (Or.inl rfl))),
      Or.inr (Or.inr (Or.inl rfl)), had, hac, Ne.symm hcd⟩
  refine addTri_rows _ pts _ _ _ _ (addTri_wf _ _ _ _ _ emptyState_wf) ?_
    ⟨Or.inl rfl, Or.inr (Or.inl rfl), Or.inr (Or.inr (Or.inr (Or.inl rfl))),
      hab, had, hbd⟩
  refine addTri_rows _ pts _ _ _ _ emptyState_wf ?_
    ⟨Or.inr (Or.inr (Or.inl rfl)), Or.inr (Or.inl rfl), Or.inl rfl,
      Ne.symm hbc, Ne.symm hac, Ne.symm hab⟩
  intro j hj
  simp [emptyState] at hj

/-- Vertex sanity through the main loop: starting from a state whose rows
draw vertices from the seed quadruple and the positions below s, after
folding the loop body over positions s, s+1, ..., s+n-1 every row draws its
vertices from the seed quadruple and the positions below s+n, with pairwise
distinctness preserved. -/
theorem mainLoop_vert (pts : List Vec3) (prec : ℚ) (a b c d : ℤ) :
    ∀ (n s : ℕ) (st : HullState),
      StateWF st →
      rowsOK (fun t _ => VertOK
        {v : ℤ | v = a ∨ v = b ∨ v = c ∨ v = d ∨ (0 ≤ v ∧ v < (s : ℤ))} t) st →
      StateWF ((List.range' s n).foldl (processPoint pts prec a b c d) st) ∧
      rowsOK (fun t _ => VertOK
        {v : ℤ | v = a ∨ v = b ∨ v = c ∨ v = d ∨ (0 ≤ v ∧ v < (s : ℤ) + (n : ℤ))} t)
        ((List.range' s n).foldl (processPoint pts prec a b c d) st) := by
  intro n
  induction n with
  | zero =>
      intro s st hwf hrows
      refine ⟨hwf, ?_⟩
      exact rowsOK_mono (fun t p ht => VertOK_mono (vset_mono a b c d (by omega)) t ht)
        st hrows
  | succ n ih =>
      intro s st hwf hrows
      rw [List.range'_succ, List.foldl_cons]
      have hwf' : StateWF (processPoint pts prec a b c d st s) :=
        processPoint_wf pts prec a b c d st s hwf
      have hrows' : rowsOK (fun t _ => VertOK
          {v : ℤ | v = a ∨ v = b ∨ v = c ∨ v = d ∨ (0 ≤ v ∧ v < ((s + 1 : ℕ) : ℤ))} t)
          (processPoint pts prec a b c d st s) := by
        by_cases hskip : ((s : ℤ) = a ∨ (s : ℤ) = b ∨ (s : ℤ) = c ∨ (s : ℤ) = d)
        · unfold processPoint
          rw [if_pos hskip]
          exact rowsOK_mono
            (fun t p ht => VertOK_mono (vset_mono a b c d (by push_cast; omega)) t ht)
            st hrows
        · rw [processPoint_horizon pts prec a b c d st s hskip]
          apply foldl_addTri_rows
          · exact conflictScan_wf pts prec st (s : ℤ) hwf
          · exact conflictScan_rows _ pts prec st (s : ℤ)
              (rowsOK_mono
                (fun t p ht => VertOK_mono (vset_mono a b c d (by push_cast; omega)) t ht)
                st hrows)
          · intro e he
            have he2 : e ∈ (conflictScan pts prec st (s : ℤ)).2 :=
              List.mem_of_mem_filter he
            obtain ⟨j, hkept, hedge⟩ := (conflictScan_edges pts prec st (s : ℤ)).2 e he2
            have hl2 := hwf.2.1
            have hjlt : j < st.triangles.length := by
              by_contra hge
              rw [getD_of_len_le st.kept j false (by omega)] at hkept
              exact Bool.noConfusion hkept
            have hv := hrows j hjlt
            set t := st.triangles.getD j ⟨0, 0, 0⟩ with ht
            obtain ⟨hx, hy, hz, hxy, hxz, hyz⟩ := hv
            have hsV : ((s : ℤ)) ∉
                {v : ℤ | v = a ∨ v = b ∨ v = c ∨ v = d ∨ (0 ≤ v ∧ v < (s : ℤ))} := by
              intro hmem
              simp only [Set.mem_setOf_eq] at hmem
              rcases hmem with h | h | h | h | h
              · exact hskip (Or.inl h)
              · exact hskip (Or.inr (Or.inl h))
              · exact hskip (Or.inr (Or.inr (Or.inl h)))
              · exact hskip (Or.inr (Or.inr (Or.inr h)))
              · omega
            have hmono : {v : ℤ | v = a ∨ v = b ∨ v = c ∨ v = d ∨ (0 ≤ v ∧ v < (s : ℤ))} ⊆
                {v : ℤ | v = a ∨ v = b ∨ v = c ∨ v = d ∨ (0 ≤ v ∧ v < ((s + 1 : ℕ) : ℤ))} :=
              vset_mono a b c d (by push_cast; omega)
            have hsmem : ((s : ℤ)) ∈
                {v : ℤ | v = a ∨ v = b ∨ v = c ∨ v = d ∨ (0 ≤ v ∧ v < ((s + 1 : ℕ) : ℤ))} := by
              simp only [Set.mem_setOf_eq]
              exact Or.inr (Or.inr (Or.inr (Or.inr ⟨by omega, by omega⟩)))
            simp only [triEdges, List.mem_cons, List.not_mem_nil, or_false] at hedge
            have hns1 : ((s : ℤ)) ≠ t.x := fun h => hsV (Set.mem_of_eq_of_mem h hx)
            have hns2 : ((s : ℤ)) ≠ t.y := fun h => hsV (Set.mem_of_eq_of_mem h hy)
            have hns3 : ((s : ℤ)) ≠ t.z := fun h => hsV (Set.mem_of_eq_of_mem h hz)
            rcases hedge with he' | he' | he'
            · subst he'
              exact ⟨hsmem, hmono hz, hmono hx, hns3, hns1, Ne.symm hxz⟩
            · subst he'
              exact ⟨hsmem, hmono hy, hmono hz, hns2, hns3, hyz⟩
            · subst he'
              exact ⟨hsmem, hmono hx, hmono hy, hns1, hns2, hxy⟩
      have hres := ih (s + 1) (processPoint pts prec a b c d st s) hwf' hrows'
      refine ⟨hres.1, ?_⟩
      exact rowsOK_mono
        (fun t p ht => VertOK_mono (vset_mono a b c d (by push_cast; omega)) t ht)
        _ hres.2

/-- Every row of the final face table draws its vertices from the seed
quadruple and the processed positions, pairwise distinct. -/
theorem hull_rows_vert (pts : List Vec3) (prec : ℚ) (st : HullState) (hp : 0 ≤ prec)
    (h : hullFinal pts prec = some st) :
    rowsOK (fun t _ => VertOK {v : ℤ | v = (seedIdx pts prec).a ∨
      v = (seedIdx pts prec).b ∨ v = (seedIdx pts prec).c ∨
      v = (seedIdx pts prec).d ∨ (0 ≤ v ∧ v < (pts.length : ℤ))} t) st := by
  have h4 : ¬ pts.length < 4 := by
    intro h4
    unfold hullFinal at h
    rw [if_pos h4] at h
    exact Option.noConfusion h
  have hdc : ¬ (NonCoplanar pts (candidatePlane pts prec) prec).1 < 0 := by
    intro hdc
    unfold hullFinal at h
    rw [if_neg h4, if_pos hdc] at h
    exact Option.noConfusion h
  rw [hullFinal_eq_some pts prec h4 hdc] at h
  have hst := Option.some.inj h
  rw [← hst, List.range_eq_range']
  have hbase : rowsOK (fun t _ => VertOK {v : ℤ | v = (seedIdx pts prec).a ∨
      v = (seedIdx pts prec).b ∨ v = (seedIdx pts prec).c ∨
      v = (seedIdx pts prec).d ∨ (0 ≤ v ∧ v < ((0 : ℕ) : ℤ))} t)
      (seedState pts prec) :=
    rowsOK_mono (fun t p ht => VertOK_mono (vset_mono _ _ _ _ (by omega)) t ht) _
      (seedState_rows_vert pts prec hp h4 hdc)
  have hres := mainLoop_vert pts prec (seedIdx pts prec).a (seedIdx pts prec).b
    (seedIdx pts prec).c (seedIdx pts prec).d pts.length 0 (seedState pts prec)
    (seedState_wf pts prec) hbase
  exact rowsOK_mono
    (fun t p ht => VertOK_mono (vset_mono _ _ _ _ (by push_cast; omega)) t ht)
    _ hres.2

/-- One strict-improvement update never decreases the running maximum. -/
theorem max_update_ge (s v : ℚ) : s ≤ if v > s then v else s := by
  by_cases h : v > s
  · rw [if_pos h]
    exact le_of_lt h
  · rw [if_neg h]

/-- One strict-improvement update dominates the candidate value. -/
theorem max_update_le (s v : ℚ) : v ≤ if v > s then v else s := by
  by_cases h : v > s
  · rw [if_pos h]
  · rw [if_neg h]
    exact le_of_not_lt h

/-- One strict-improvement update returns the old value or the candidate. -/
theorem max_update_cases (s v : ℚ) :
    (if v > s then v else s) = s ∨ (if v > s then v else s) = v := by
  by_cases h : v > s
  · right
    rw [if_pos h]
  · left
    rw [if_neg h]

/-- A fold of a step that never decreases and dominates all three
coordinates bounds every coordinate of every element. -/
theorem foldl_scale_ge (f : ℚ → Vec3 → ℚ)
    (hmono : ∀ s p, s ≤ f s p)
    (hbound : ∀ s p, |p.x| ≤ f s p ∧ |p.y| ≤ f s p ∧ |p.z| ≤ f s p) :
    ∀ (l : List Vec3) (s0 : ℚ), s0 ≤ l.foldl f s0 ∧
      ∀ p ∈ l, |p.x| ≤ l.foldl f s0 ∧ |p.y| ≤ l.foldl f s0 ∧ |p.z| ≤ l.foldl f s0 := by
  intro l
  induction l with
  | nil =>
      intro s0
      refine ⟨le_refl _, ?_⟩
      intro p hp
      exact absurd hp (List.not_mem_nil p)
  | cons q l ih =>
      intro s0
      rw [List.foldl_cons]
      obtain ⟨h1, h2⟩ := ih (f s0 q)
      refine ⟨le_trans (hmono s0 q) h1, ?_⟩
      intro p hp
      rcases List.mem_cons.1 hp with rfl | hp'
      · have hb := hbound s0 p
        exact ⟨le_trans hb.1 h1, le_trans hb.2.1 h1, le_trans hb.2.2 h1⟩
      · exact h2 p hp'

/-- A fold of a step that always returns the old value or one coordinate's
absolute value is the start value or one coordinate's absolute value. -/
theorem foldl_scale_attained (f : ℚ → Vec3 → ℚ)
    (hcases : ∀ s p, f s p = s ∨ f s p = |p.x| ∨ f s p = |p.y| ∨ f s p = |p.z|) :
    ∀ (l : List Vec3) (s0 : ℚ), l.foldl f s0 = s0 ∨
      ∃ p ∈ l, l.foldl f s0 = |p.x| ∨ l.foldl f s0 = |p.y| ∨ l.foldl f s0 = |p.z| := by
  intro l
  induction l with
  | nil =>
      intro s0
      exact Or.inl rfl
  | cons q l ih =>
      intro s0
      rw [List.foldl_cons]
      rcases ih (f s0 q) with h | ⟨p, hp, h⟩
      · rcases hcases s0 q with h0 | h0 | h0 | h0
        · exact Or.inl (h.trans h0)
        · exact Or.inr ⟨q, List.mem_cons_self q l, Or.inl (h.trans h0)⟩
        · exact Or.inr ⟨q, List.mem_cons_self q l, Or.inr (Or.inl (h.trans h0))⟩
        · exact Or.inr ⟨q, List.mem_cons_self q l, Or.inr (Or.inr (h.trans h0))⟩
      · exact Or.inr ⟨p, List.mem_cons_of_mem q hp, h⟩

/-- The computed scale is the maximum, over the start value 0 and all
points and axes, of the absolute coordinate values. -/
theorem scaleOf_max (pts : List Vec3) :
    0 ≤ scaleOf pts ∧
    (∀ p ∈ pts, |p.x| ≤ scaleOf pts ∧ |p.y| ≤ scaleOf pts ∧ |p.z| ≤ scaleOf pts) ∧
    (scaleOf pts = 0 ∨
      ∃ p ∈ pts, scaleOf pts = |p.x| ∨ scaleOf pts = |p.y| ∨ scaleOf pts = |p.z|) := by
  have hm : ∀ (s : ℚ) (p : Vec3), s ≤
      (if |p.z| > (if |p.y| > (if |p.x| > s then |p.x| else s) then |p.y|
        else (if |p.x| > s then |p.x| else s)) then |p.z|
        else (if |p.y| > (if |p.x| > s then |p.x| else s) then |p.y|
          else (if |p.x| > s then |p.x| else s))) := fun s p =>
    le_trans (max_update_ge s _) (le_trans (max_update_ge _ _) (max_update_ge _ _))
  have hb : ∀ (s : ℚ) (p : Vec3),
      |p.x| ≤ (if |p.z| > (if |p.y| > (if |p.x| > s then |p.x| else s) then |p.y|
        else (if |p.x| > s then |p.x| else s)) then |p.z|
        else (if |p.y| > (if |p.x| > s then |p.x| else s) then |p.y|
          else (if |p.x| > s then |p.x| else s))) ∧
      |p.y| ≤ (if |p.z| > (if |p.y| > (if |p.x| > s then |p.x| else s) then |p.y|
        else (if |p.x| > s then |p.x| else s)) then |p.z|
        else (if |p.y| > (if |p.x| > s then |p.x| else s) then |p.y|
          else (if |p.x| > s then |p.x| else s))) ∧
      |p.z| ≤ (if |p.z| > (if |p.y| > (if |p.x| > s then |p.x| else s) then |p.y|
        else (if |p.x| > s then |p.x| else s)) then |p.z|
        else (if |p.y| > (if |p.x| > s then |p.x| else s) then |p.y|
          else (if |p.x| > s then |p.x| else s))) := fun s p =>
    ⟨le_trans (max_update_le s _) (le_trans (max_update_ge _ _) (max_update_ge _ _)),
     le_trans (max_update_le _ _) (max_update_ge _ _),
     max_update_le _ _⟩
  have hc : ∀ (s : ℚ) (p : Vec3),
      (if |p.z| > (if |p.y| > (if |p.x| > s then |p.x| else s) then |p.y|
        else (if |p.x| > s then |p.x| else s)) then |p.z|
        else (if |p.y| > (if |p.x| > s then |p.x| else s) then |p.y|
          else (if |p.x| > s then |p.x| else s))) = s ∨
      (if |p.z| > (if |p.y| > (if |p.x| > s then |p.x| else s) then |p.y|
        else (if |p.x| > s then |p.x| else s)) then |p.z|
        else (if |p.y| > (if |p.x| > s then |p.x| else s) then |p.y|
          else (if |p.x| > s then |p.x| else s))) = |p.x| ∨
      (if |p.z| > (if |p.y| > (if |p.x| > s then |p.x| else s) then |p.y|
        else (if |p.x| > s then |p.x| else s)) then |p.z|
        else (if |p.y| > (if |p.x| > s then |p.x| else s) then |p.y|
          else (if |p.x| > s then |p.x| else s))) = |p.y| ∨
      (if |p.z| > (if |p.y| > (if |p.x| > s then |p.x| else s) then |p.y|
        else (if |p.x| > s then |p.x| else s)) then |p.z|
        else (if |p.y| > (if |p.x| > s then |p.x| else s) then |p.y|
          else (if |p.x| > s then |p.x| else s))) = |p.z| := by
    intro s p
    rcases max_update_cases (if |p.y| > (if |p.x| > s then |p.x| else s) then |p.y|
        else (if |p.x| > s then |p.x| else s)) |p.z| with h3 | h3
    · rw [h3]
      rcases max_update_cases (if |p.x| > s then |p.x| else s) |p.y| with h2 | h2
      · rw [h2]
        rcases max_update_cases s |p.x| with h1 | h1
        · exact Or.inl h1
        · exact Or.inr (Or.inl h1)
      · exact Or.inr (Or.inr (Or.inl h2))
    · exact Or.inr (Or.inr (Or.inr h3))
  have h1 := foldl_scale_ge
    (fun s p => (if |p.z| > (if |p.y| > (if |p.x| > s then |p.x| else s) then |p.y|
        else (if |p.x| > s then |p.x| else s)) then |p.z|
        else (if |p.y| > (if |p.x| > s then |p.x| else s) then |p.y|
          else (if |p.x| > s then |p.x| else s)))) hm hb pts 0
  have h2 := foldl_scale_attained
    (fun s p => (if |p.z| > (if |p.y| > (if |p.x| > s then |p.x| else s) then |p.y|
        else (if |p.x| > s then |p.x| else s)) then |p.z|
        else (if |p.y| > (if |p.x| > s then |p.x| else s) then |p.y|
          else (if |p.x| > s then |p.x| else s)))) hc pts 0
  exact ⟨h1.1, h1.2, h2⟩

/-- Constant lists fetch the constant. -/
theorem getD_const {α : Type} (l : List α) (v : α) (h : ∀ p ∈ l, p = v) (j : ℕ) :
    l.getD j v = v := by
  rcases Nat.lt_or_ge j l.length with hlt | hge
  · rw [List.getD_eq_getElem?_getD, List.getElem?_eq_getElem hlt]
    exact h _ (List.getElem_mem hlt)
  · exact getD_of_len_le l j v hge

/-- When every point is the origin the scale is zero. -/
theorem scaleOf_origin (pts : List Vec3) (h : ∀ p ∈ pts, p = zeroV) :
    scaleOf pts = 0 := by
  rcases (scaleOf_max pts).2.2 with h0 | ⟨p, hp, hc | hc | hc⟩
  · exact h0
  · rw [hc, h p hp]
    norm_num [zeroV]
  · rw [hc, h p hp]
    norm_num [zeroV]
  · rw [hc, h p hp]
    norm_num [zeroV]

/-- When every point is the origin every fetched point is the origin. -/
theorem getP_origin (pts : List Vec3) (h : ∀ p ∈ pts, p = zeroV) (i : ℤ) :
    getP pts i = zeroV := by
  unfold getP
  split
  · exact getD_const pts zeroV h _
  · rfl

/-- When every point is the origin the hull is empty for every nonnegative
precision: the candidate plane is null, so NonCoplanar fails. -/
theorem Hull_origin (pts : List Vec3) (h : ∀ p ∈ pts, p = zeroV) (prec : ℚ)
    (hp : 0 ≤ prec) : Hull pts prec = [] := by
  by_cases h4 : pts.length < 4
  · exact Hull_empty_of_none _ _ (hullFinal_of_short _ _ h4)
  · have hcand : candidatePlane pts prec = ⟨zeroV, 0⟩ := by
      show PlaneOfPts (getP pts (NonCollinearTriple pts prec).x)
        (getP pts (NonCollinearTriple pts prec).y)
        (getP pts (NonCollinearTriple pts prec).z) = ⟨zeroV, 0⟩
      rw [getP_origin pts h, getP_origin pts h, getP_origin pts h]
      with_unfolding_all decide
    have hnc : NonCoplanar pts (candidatePlane pts prec) prec = (-1, false) := by
      rw [hcand]
      exact NonCoplanar_null pts prec hp
    refine Hull_empty_of_none _ _ (hullFinal_of_noncop _ _ h4 ?_)
    rw [hnc]
    norm_num

/-! The claim theorems. -/

set_option maxRecDepth 200000 in
/-- Claim C1 (code_bug): on four collinear points NonCollinearTriple
returns the sentinel (-1,-1,-1), and Hull, whose only early return before
using the triple is the length guard, proceeds to build the candidate plane
from pts[-1] three times: out-of-bounds reads, undefined behaviour in the
C++. In this model (out-of-range reads yield the zero vector) the run
continues and returns the empty hull, but the spec's promise that the
sentinel is never dereferenced is false of the code. -/
theorem C1_sentinel_oob :
    NonCollinearTriple pts1ce (1/10) = ⟨-1, -1, -1⟩ ∧
    4 ≤ pts1ce.length ∧
    candidatePlane pts1ce (1/10) =
      PlaneOfPts (getP pts1ce (-1)) (getP pts1ce (-1)) (getP pts1ce (-1)) ∧
    Hull pts1ce (1/10) = [] := by
  with_unfolding_all decide

set_option maxRecDepth 400000 in
/-- Claim C3, counterexample: on pts3ce with tolerance 1/2 the output
contains the triangle (4, 0, 1), whose supporting plane (the plane of its
vertices taken in reversed stored order, exactly as AddTri computes it) has
input point 2 at signed distance strictly greater than the tolerance: a
point strictly in front of a retained face. -/
theorem C3_counterexample :
    IVec3.mk 4 0 1 ∈ Hull pts3ce (1/2) ∧
    (2 : ℕ) < pts3ce.length ∧
    sdGT (PlaneOfPts (getP pts3ce (IVec3.mk 4 0 1).z) (getP pts3ce (IVec3.mk 4 0 1).y)
      (getP pts3ce (IVec3.mk 4 0 1).x)) (getP pts3ce ((2 : ℕ) : ℤ)) (1/2) = true := by
  with_unfolding_all decide

/-- Claim C3, amended: the conflict-driven invariant that does hold is
local to the loop: immediately after a non-seed point is processed, every
face then live has that point on or behind its plane within tolerance
(faces it was in front of were dropped, and the replacement faces through
the point itself have it on their planes). Later insertions can rebuild
faces that earlier points lie strictly in front of, so the per-point
invariant does not globalise to the final hull. -/
theorem C3_behind_amended (pts : List Vec3) (prec : ℚ) (a b c d : ℤ)
    (st : HullState) (i : ℕ) (hp : 0 ≤ prec) (hwf : StateWF st)
    (hskip : ¬ ((i : ℤ) = a ∨ (i : ℤ) = b ∨ (i : ℤ) = c ∨ (i : ℤ) = d)) :
    ∀ j : ℕ, (processPoint pts prec a b c d st i).kept.getD j false = true →
      sdGT ((processPoint pts prec a b c d st i).planes.getD j ⟨zeroV, 0⟩)
        (getP pts (i : ℤ)) prec = false :=
  processPoint_behind pts prec a b c d st i hp hwf hskip

set_option maxRecDepth 200000 in
/-- Claim C3, witness for the amended theorem at a concrete input. -/
theorem C3_amended_witness :
    (processPoint pts5ce (1/10) 0 2 1 3 (seedState pts5ce (1/10)) 5).kept.getD 0 false
      = true ∧
    sdGT ((processPoint pts5ce (1/10) 0 2 1 3 (seedState pts5ce (1/10)) 5).planes.getD 0
      ⟨zeroV, 0⟩) (getP pts5ce ((5 : ℕ) : ℤ)) (1/10) = false :=
  ⟨by with_unfolding_all decide,
   C3_behind_amended pts5ce (1/10) 0 2 1 3 (seedState pts5ce (1/10)) 5 (by norm_num)
     (seedState_wf pts5ce (1/10)) (by decide) 0 (by with_unfolding_all decide)⟩

/-- Inverse scaling cancels: a vector is the positive multiple (by its
norm) of its normalisation. -/
theorem smulR_cancel (v : RVec3) (k : ℝ) (hk : k ≠ 0) :
    smulR k (smulR k⁻¹ v) = v := by
  cases v with
  | mk vx vy vz =>
      simp only [smulR, RVec3.mk.injEq]
      refine ⟨?_, ?_, ?_⟩ <;> rw [← mul_assoc, mul_inv_cancel₀ hk, one_mul]

/-- Claim C4: every face-table row is an AddTri row: the stored triangle is
(c, b, a) for the argument order (a, b, c) whose plane is stored beside it;
consequently cross(points[t.y] - points[t.x], points[t.z] - points[t.x]),
taken in stored vertex order, equals the stored unnormalised plane normal
exactly, and is a positive multiple (by the normal's length) of the
normalised plane normal the C++ stores, whenever that normal is nonzero. -/
theorem C4_winding (pts : List Vec3) (prec : ℚ) (j : ℕ)
    (hj : j < (hullStateD pts prec).triangles.length) :
    ∃ (t : IVec3) (pl : Plane) (a b c : ℤ),
      (hullStateD pts prec).triangles.getD j ⟨0, 0, 0⟩ = t ∧
      (hullStateD pts prec).planes.getD j ⟨zeroV, 0⟩ = pl ∧
      t = ⟨c, b, a⟩ ∧
      pl = PlaneOfPts (getP pts a) (getP pts b) (getP pts c) ∧
      crossV (getP pts t.y - getP pts t.x) (getP pts t.z - getP pts t.x) = pl.n ∧
      (pl.n ≠ zeroV → ∃ k : ℝ, 0 < k ∧
        toR (crossV (getP pts t.y - getP pts t.x) (getP pts t.z - getP pts t.x)) =
          smulR k (smulR (Real.sqrt (normSqR (toR pl.n)))⁻¹ (toR pl.n))) := by
  unfold hullStateD at hj ⊢
  cases hf : hullFinal pts prec with
  | none =>
      rw [hf] at hj
      simp [emptyState] at hj
  | some st =>
      rw [hf] at hj
      simp only [Option.getD_some] at hj ⊢
      have hrow := hull_rows_faceOK pts prec st hf j hj
      unfold FaceOK at hrow
      obtain ⟨a, b, c, htri, hpl⟩ := hrow
      have hcr : crossV
          (getP pts ((st.triangles.getD j ⟨0, 0, 0⟩).y) -
            getP pts ((st.triangles.getD j ⟨0, 0, 0⟩).x))
          (getP pts ((st.triangles.getD j ⟨0, 0, 0⟩).z) -
            getP pts ((st.triangles.getD j ⟨0, 0, 0⟩).x)) =
          (st.planes.getD j ⟨zeroV, 0⟩).n := by
        rw [htri, hpl]
        exact crossV_reversal (getP pts a) (getP pts b) (getP pts c)
      refine ⟨_, _, a, b, c, rfl, rfl, htri, hpl, hcr, ?_⟩
      intro hn
      have hkpos : 0 < Real.sqrt (normSqR (toR (st.planes.getD j ⟨zeroV, 0⟩).n)) := by
        apply Real.sqrt_pos.2
        rw [normSqR_toR]
        exact_mod_cast normSq_pos _ hn
      refine ⟨_, hkpos, ?_⟩
      rw [hcr]
      exact (smulR_cancel (toR (st.planes.getD j ⟨zeroV, 0⟩).n) _ (ne_of_gt hkpos)).symm

set_option maxRecDepth 400000 in
/-- Claim C4, witness at a concrete input and slot. -/
theorem C4_witness :
    0 < (hullStateD pts3ce (1/2)).triangles.length ∧
    (∃ (t : IVec3) (pl : Plane) (a b c : ℤ),
      (hullStateD pts3ce (1/2)).triangles.getD 0 ⟨0, 0, 0⟩ = t ∧
      (hullStateD pts3ce (1/2)).planes.getD 0 ⟨zeroV, 0⟩ = pl ∧
      t = ⟨c, b, a⟩ ∧
      pl = PlaneOfPts (getP pts3ce a) (getP pts3ce b) (getP pts3ce c) ∧
      crossV (getP pts3ce t.y - getP pts3ce t.x) (getP pts3ce t.z - getP pts3ce t.x)
        = pl.n ∧
      (pl.n ≠ zeroV → ∃ k : ℝ, 0 < k ∧
        toR (crossV (getP pts3ce t.y - getP pts3ce t.x)
          (getP pts3ce t.z - getP pts3ce t.x)) =
          smulR k (smulR (Real.sqrt (normSqR (toR pl.n)))⁻¹ (toR pl.n)))) :=
  ⟨by with_unfolding_all decide, C4_winding pts3ce (1/2) 0 (by with_unfolding_all decide)⟩

set_option maxRecDepth 200000 in
/-- Claim C5, counterexample: on pts5ce with tolerance 1/10 the fourth
point found by NonCoplanar is flagged above the candidate plane, the two
in-plane indices are genuinely swapped (the triple's second and third
components differ), yet the fourth point is NOT behind the plane: its
signed distance is not below -tolerance. The swap accompanies the point
being in front, not behind. -/
theorem C5_counterexample :
    (NonCoplanar pts5ce (candidatePlane pts5ce (1/10)) (1/10)).2 = true ∧
    (seedIdx pts5ce (1/10)).b = (NonCollinearTriple pts5ce (1/10)).z ∧
    (seedIdx pts5ce (1/10)).c = (NonCollinearTriple pts5ce (1/10)).y ∧
    (NonCollinearTriple pts5ce (1/10)).y ≠ (NonCollinearTriple pts5ce (1/10)).z ∧
    sdLT (candidatePlane pts5ce (1/10))
      (getP pts5ce (NonCoplanar pts5ce (candidatePlane pts5ce (1/10)) (1/10)).1)
      (-(1/10)) = false := by
  with_unfolding_all decide

/-- Claim C5, amended: the two in-plane indices are swapped exactly when
the fourth point lies strictly IN FRONT of the candidate plane (signed
distance above the tolerance) — the opposite of the claimed direction —
and in both cases the resulting first seed face is oriented with the
fourth point strictly behind its plane. -/
theorem C5_swap_amended (pts : List Vec3) (prec : ℚ) (hp : 0 ≤ prec)
    (hdc : ¬ (NonCoplanar pts (candidatePlane pts prec) prec).1 < 0) :
    ((NonCoplanar pts (candidatePlane pts prec) prec).2 = true ↔
      sdGT (candidatePlane pts prec)
        (getP pts (NonCoplanar pts (candidatePlane pts prec) prec).1) prec = true) ∧
    ((NonCoplanar pts (candidatePlane pts prec) prec).2 = true →
      (seedIdx pts prec).b = (NonCollinearTriple pts prec).z ∧
      (seedIdx pts prec).c = (NonCollinearTriple pts prec).y) ∧
    ((NonCoplanar pts (candidatePlane pts prec) prec).2 = false →
      (seedIdx pts prec).b = (NonCollinearTriple pts prec).y ∧
      (seedIdx pts prec).c = (NonCollinearTriple pts prec).z) ∧
    sdNum (PlaneOfPts (getP pts (seedIdx pts prec).a) (getP pts (seedIdx pts prec).b)
      (getP pts (seedIdx pts prec).c))
      (getP pts (NonCoplanar pts (candidatePlane pts prec) prec).1) < 0 := by
  rcases NonCoplanar_cases pts (candidatePlane pts prec) prec with hnone | ⟨dn, hdn, heq, habs⟩
  · exfalso
    apply hdc
    rw [hnone]
    norm_num
  · have h1 : (NonCoplanar pts (candidatePlane pts prec) prec).1 = (dn : ℤ) := by
      rw [heq]
    have h2 : (NonCoplanar pts (candidatePlane pts prec) prec).2 =
        sdGT (candidatePlane pts prec) (getP pts (dn : ℤ)) prec := by
      rw [heq]
    have hav : (seedIdx pts prec).a = (NonCollinearTriple pts prec).x := rfl
    have hbv : (seedIdx pts prec).b =
        if (NonCoplanar pts (candidatePlane pts prec) prec).2 = true
        then (NonCollinearTriple pts prec).z else (NonCollinearTriple pts prec).y := rfl
    have hcv : (seedIdx pts prec).c =
        if (NonCoplanar pts (candidatePlane pts prec) prec).2 = true
        then (NonCollinearTriple pts prec).y else (NonCollinearTriple pts prec).z := rfl
    have hcand : PlaneOfPts (getP pts (NonCollinearTriple pts prec).x)
        (getP pts (NonCollinearTriple pts prec).y)
        (getP pts (NonCollinearTriple pts prec).z) = candidatePlane pts prec := rfl
    rw [h1, h2]
    refine ⟨Iff.rfl, ?_, ?_, ?_⟩
    · intro hflag
      rw [hbv, hcv, h2, hflag]
      exact ⟨if_pos rfl, if_pos rfl⟩
    · intro hflag
      rw [hbv, hcv, h2, hflag]
      exact ⟨if_neg (by simp), if_neg (by simp)⟩
    · cases hb : sdGT (candidatePlane pts prec) (getP pts (dn : ℤ)) prec with
      | true =>
          rw [hav, hbv, hcv, h2, hb, if_pos rfl, if_pos rfl]
          rw [PlaneOfPts_swap (getP pts (NonCollinearTriple pts prec).x)
            (getP pts (NonCollinearTriple pts prec).y)
            (getP pts (NonCollinearTriple pts prec).z), sdNum_negPlane, hcand]
          have hpos := (sdGT_true_pos _ _ _ hp hb).1
          linarith
      | false =>
          rw [hav, hbv, hcv, h2, hb, if_neg (by simp), if_neg (by simp), hcand]
          exact sdGT_false_neg _ _ _ hp habs hb

set_option maxRecDepth 200000 in
/-- Claim C5, witness for the amended theorem at a concrete input. -/
theorem C5_amended_witness :
    ((NonCoplanar pts5ce (candidatePlane pts5ce (1/10)) (1/10)).2 = true ↔
      sdGT (candidatePlane pts5ce (1/10))
        (getP pts5ce (NonCoplanar pts5ce (candidatePlane pts5ce (1/10)) (1/10)).1)
        (1/10) = true) ∧
    ((NonCoplanar pts5ce (candidatePlane pts5ce (1/10)) (1/10)).2 = true →
      (seedIdx pts5ce (1/10)).b = (NonCollinearTriple pts5ce (1/10)).z ∧
      (seedIdx pts5ce (1/10)).c = (NonCollinearTriple pts5ce (1/10)).y) ∧
    ((NonCoplanar pts5ce (candidatePlane pts5ce (1/10)) (1/10)).2 = false →
      (seedIdx pts5ce (1/10)).b = (NonCollinearTriple pts5ce (1/10)).y ∧
      (seedIdx pts5ce (1/10)).c = (NonCollinearTriple pts5ce (1/10)).z) ∧
    sdNum (PlaneOfPts (getP pts5ce (seedIdx pts5ce (1/10)).a)
      (getP pts5ce (seedIdx pts5ce (1/10)).b) (getP pts5ce (seedIdx pts5ce (1/10)).c))
      (getP pts5ce (NonCoplanar pts5ce (candidatePlane pts5ce (1/10)) (1/10)).1) < 0 :=
  C5_swap_amended pts5ce (1/10) (by norm_num) (by with_unfolding_all decide)

set_option maxRecDepth 400000 in
/-- Claim C6, counterexample: while processing point 4 of pts6ce (whose
seed quadruple is 0,1,2,3), the half-edge collection built by the conflict
scan holds a directed edge and its reverse simultaneously: insertion does
not cancel, matching the C++ unordered_set whose insert never erases. The
cancellation the claim describes happens only later, in the erase loop over
the set. -/
theorem C6_counterexample :
    seedIdx pts6ce (1/10) = ⟨0, 1, 2, 3⟩ ∧
    IVec2.mk 0 1 ∈ (conflictScan pts6ce (1/10) (seedState pts6ce (1/10)) 4).2 ∧
    IVec2.mk 1 0 ∈ (conflictScan pts6ce (1/10) (seedState pts6ce (1/10)) 4).2 ∧
    revE (IVec2.mk 0 1) = IVec2.mk 1 0 := by
  with_unfolding_all decide

/-- Claim C6, amended: the collection can transiently hold an edge together
with its reverse; what does hold is that such mutually reversed pairs
cancel during the horizon iteration, so neither direction of the pair
creates a face — only edges whose reverse was never collected (edges
bounding exactly one removed face) do. -/
theorem C6_horizon_amended (pts : List Vec3) (prec : ℚ) (st : HullState) (i : ℤ)
    (e : IVec2) (he : e ∈ (conflictScan pts prec st i).2)
    (hre : revE e ∈ (conflictScan pts prec st i).2) :
    e ∉ horizonCreated (conflictScan pts prec st i).2 (conflictScan pts prec st i).2 ∧
    revE e ∉ horizonCreated (conflictScan pts prec st i).2 (conflictScan pts prec st i).2 := by
  have hnd := (conflictScan_edges pts prec st i).1
  rw [horizonCreated_eq _ hnd]
  constructor
  · intro hmem
    have hdec := List.of_mem_filter hmem
    rw [decide_eq_true_eq] at hdec
    exact hdec hre
  · intro hmem
    have hdec := List.of_mem_filter hmem
    rw [decide_eq_true_eq, revE_revE] at hdec
    exact hdec he

set_option maxRecDepth 400000 in
/-- Claim C6, witness for the amended theorem at a concrete input. -/
theorem C6_amended_witness :
    IVec2.mk 0 1 ∉ horizonCreated (conflictScan pts6ce (1/10) (seedState pts6ce (1/10)) 4).2
      (conflictScan pts6ce (1/10) (seedState pts6ce (1/10)) 4).2 ∧
    revE (IVec2.mk 0 1) ∉
      horizonCreated (conflictScan pts6ce (1/10) (seedState pts6ce (1/10)) 4).2
      (conflictScan pts6ce (1/10) (seedState pts6ce (1/10)) 4).2 :=
  C6_horizon_amended pts6ce (1/10) (seedState pts6ce (1/10)) 4 (IVec2.mk 0 1)
    (by with_unfolding_all decide) (by with_unfolding_all decide)

/-- Claim C7: after the conflict scan for a non-seed point i, the state is
exactly the fold of AddTri(e.x, e.y, i) over those collected directed edges
whose reverse was not also collected (the horizon edges), starting from the
post-scan state; and AddTri overwrites the most recently tombstoned slot
(the head of the dropped stack) when one exists, appending a fresh slot
otherwise. -/
theorem C7_horizon_faces (pts : List Vec3) (prec : ℚ) (a b c d x y z : ℤ)
    (st s : HullState) (i : ℕ) (idx : ℕ) (rest : List ℕ)
    (hskip : ¬ ((i : ℤ) = a ∨ (i : ℤ) = b ∨ (i : ℤ) = c ∨ (i : ℤ) = d)) :
    processPoint pts prec a b c d st i =
      ((conflictScan pts prec st (i : ℤ)).2.filter
        (fun e => decide (revE e ∉ (conflictScan pts prec st (i : ℤ)).2))).foldl
        (fun s e => addTri pts s e.x e.y (i : ℤ)) (conflictScan pts prec st (i : ℤ)).1 ∧
    (s.dropped = idx :: rest →
      addTri pts s x y z = ⟨s.triangles.set idx ⟨z, y, x⟩,
        s.planes.set idx (PlaneOfPts (getP pts x) (getP pts y) (getP pts z)),
        rest, s.kept.set idx true⟩) ∧
    (s.dropped = [] →
      addTri pts s x y z = ⟨s.triangles ++ [⟨z, y, x⟩],
        s.planes ++ [PlaneOfPts (getP pts x) (getP pts y) (getP pts z)],
        [], s.kept ++ [true]⟩) :=
  ⟨processPoint_horizon pts prec a b c d st i hskip,
   fun h => addTri_cons pts s x y z idx rest h,
   fun h => addTri_nil pts s x y z h⟩

set_option maxRecDepth 400000 in
/-- Claim C7, witness at a concrete input. -/
theorem C7_witness :
    processPoint pts6ce (1/10) 0 1 2 3 (seedState pts6ce (1/10)) 4 =
      ((conflictScan pts6ce (1/10) (seedState pts6ce (1/10)) ((4 : ℕ) : ℤ)).2.filter
        (fun e => decide (revE e ∉
          (conflictScan pts6ce (1/10) (seedState pts6ce (1/10)) ((4 : ℕ) : ℤ)).2))).foldl
        (fun s e => addTri pts6ce s e.x e.y ((4 : ℕ) : ℤ))
        (conflictScan pts6ce (1/10) (seedState pts6ce (1/10)) ((4 : ℕ) : ℤ)).1 ∧
    (emptyState.dropped = 0 :: [] →
      addTri pts6ce emptyState 5 6 7 = ⟨emptyState.triangles.set 0 ⟨7, 6, 5⟩,
        emptyState.planes.set 0 (PlaneOfPts (getP pts6ce 5) (getP pts6ce 6) (getP pts6ce 7)),
        [], emptyState.kept.set 0 true⟩) ∧
    (emptyState.dropped = [] →
      addTri pts6ce emptyState 5 6 7 = ⟨emptyState.triangles ++ [⟨7, 6, 5⟩],
        emptyState.planes ++ [PlaneOfPts (getP pts6ce 5) (getP pts6ce 6) (getP pts6ce 7)],
        [], emptyState.kept ++ [true]⟩) :=
  C7_horizon_faces pts6ce (1/10) 0 1 2 3 5 6 7 (seedState pts6ce (1/10)) emptyState 4 0 []
    (by decide)

/-- Claim C8: the one-argument overload delegates to the two-argument Hull
with tolerance 1e-9 times the computed scale; the scale is the running
maximum, over the start value 0 and all points and axes, of the absolute
coordinate values (it bounds every coordinate and is attained by one of
them unless it is the start value); and when every point is the origin the
derived tolerance is 0 and the result is empty. -/
theorem C8_scale_overload (pts : List Vec3) :
    Hull' pts = Hull pts ((1 / 1000000000) * scaleOf pts) ∧
    0 ≤ scaleOf pts ∧
    (∀ p ∈ pts, |p.x| ≤ scaleOf pts ∧ |p.y| ≤ scaleOf pts ∧ |p.z| ≤ scaleOf pts) ∧
    (scaleOf pts = 0 ∨
      ∃ p ∈ pts, scaleOf pts = |p.x| ∨ scaleOf pts = |p.y| ∨ scaleOf pts = |p.z|) ∧
    ((∀ p ∈ pts, p = zeroV) →
      (1 / 1000000000) * scaleOf pts = 0 ∧ Hull' pts = []) := by
  obtain ⟨h0, hb, ha⟩ := scaleOf_max pts
  refine ⟨rfl, h0, hb, ha, ?_⟩
  intro hall
  have hs := scaleOf_origin pts hall
  constructor
  · rw [hs]
    ring
  · show Hull pts ((1 / 1000000000) * scaleOf pts) = []
    rw [hs, mul_zero]
    exact Hull_origin pts hall 0 (le_refl 0)

/-- When both guards pass, the final builder state is exactly the state
hullStateD reads off. -/
theorem hullFinal_some_getD (pts : List Vec3) (prec : ℚ) (h4 : ¬ pts.length < 4)
    (hdc : ¬ (NonCoplanar pts (candidatePlane pts prec) prec).1 < 0) :
    hullFinal pts prec = some (hullStateD pts prec) := by
  unfold hullStateD
  rw [hullFinal_eq_some pts prec h4 hdc]
  rfl

/-- Claim C9: the three parallel vectors stay equal in length, the dropped
list holds exactly the dead slots without duplicates (this is StateWF,
holding of the seed state, preserved by every loop step, and holding of
any final state), and the output is the triangles of the live slots in
increasing slot order. -/
theorem C9_state_invariants (pts : List Vec3) (prec : ℚ) (a b c d : ℤ) (i : ℕ)
    (st st' : HullState) (hwf : StateWF st) (hf : hullFinal pts prec = some st') :
    StateWF (seedState pts prec) ∧
    StateWF (processPoint pts prec a b c d st i) ∧
    StateWF st' ∧
    Hull pts prec = ((List.range st'.triangles.length).filter
      (fun j => st'.kept.getD j false)).map (fun j => st'.triangles.getD j ⟨0, 0, 0⟩) := by
  have hwf' := hullFinal_wf pts prec st' hf
  refine ⟨seedState_wf pts prec, processPoint_wf pts prec a b c d st i hwf, hwf', ?_⟩
  unfold Hull
  rw [hf]
  show collectOut st' = _
  exact collectOut_eq st' hwf'.2.1

set_option maxRecDepth 400000 in
/-- Claim C9, witness at a concrete input. -/
theorem C9_witness :
    StateWF (seedState pts3ce (1/2)) ∧
    StateWF (processPoint pts3ce (1/2) 0 0 0 0 emptyState 0) ∧
    StateWF (hullStateD pts3ce (1/2)) ∧
    Hull pts3ce (1/2) = ((List.range (hullStateD pts3ce (1/2)).triangles.length).filter
      (fun j => (hullStateD pts3ce (1/2)).kept.getD j false)).map
      (fun j => (hullStateD pts3ce (1/2)).triangles.getD j ⟨0, 0, 0⟩) :=
  C9_state_invariants pts3ce (1/2) 0 0 0 0 0 emptyState (hullStateD pts3ce (1/2))
    emptyState_wf
    (hullFinal_some_getD pts3ce (1/2) (by decide) (by with_unfolding_all decide))

/-- Claim C10: every output triangle has three pairwise-distinct vertex
indices, each in range: the seed faces use the four pairwise-distinct seed
indices, and every face created from a horizon edge combines the processed
point's index with two distinct vertices of an existing face. -/
theorem C10_vertex_sanity (pts : List Vec3) (prec : ℚ) (t : IVec3)
    (hp : 0 ≤ prec) (ht : t ∈ Hull pts prec) :
    (0 ≤ t.x ∧ t.x < (pts.length : ℤ)) ∧ (0 ≤ t.y ∧ t.y < (pts.length : ℤ)) ∧
    (0 ≤ t.z ∧ t.z < (pts.length : ℤ)) ∧ t.x ≠ t.y ∧ t.x ≠ t.z ∧ t.y ≠ t.z := by
  unfold Hull at ht
  cases hf : hullFinal pts prec with
  | none =>
      rw [hf] at ht
      simp [Option.elim] at ht
  | some st =>
      rw [hf] at ht
      have h4 : ¬ pts.length < 4 := by
        intro h4
        rw [hullFinal_of_short pts prec h4] at hf
        exact Option.noConfusion hf
      have hdc : ¬ (NonCoplanar pts (candidatePlane pts prec) prec).1 < 0 := by
        intro hdc
        rw [hullFinal_of_noncop pts prec h4 hdc] at hf
        exact Option.noConfusion hf
      obtain ⟨hA, hB, hC, hD, -, -, -, -, -, -⟩ := seedIdx_props pts prec hp h4 hdc
      have hrows := hull_rows_vert pts prec st hp hf
      have ht' : t ∈ collectOut st := ht
      unfold collectOut at ht'
      obtain ⟨tk, htk, hteq⟩ := List.mem_map.1 ht'
      obtain ⟨t1, t2⟩ := tk
      have hzip := List.mem_of_mem_filter htk
      have hmem := (List.of_mem_zip hzip).1
      have ht1 : t1 = t := hteq
      subst ht1
      obtain ⟨j, hj, hjt⟩ := List.mem_iff_getElem.1 hmem
      have hget : st.triangles.getD j ⟨0, 0, 0⟩ = t1 := by
        simp only [List.getD_eq_getElem?_getD, List.getElem?_eq_getElem hj,
          Option.getD_some]
        exact hjt
      have hv := hrows j hj
      rw [hget] at hv
      obtain ⟨hx, hy, hz, hxy, hxz, hyz⟩ := hv
      have hbound : ∀ v : ℤ, v ∈ {v : ℤ | v = (seedIdx pts prec).a ∨
          v = (seedIdx pts prec).b ∨ v = (seedIdx pts prec).c ∨
          v = (seedIdx pts prec).d ∨ (0 ≤ v ∧ v < (pts.length : ℤ))} →
          0 ≤ v ∧ v < (pts.length : ℤ) := by
        intro v hv'
        simp only [Set.mem_setOf_eq] at hv'
        rcases hv' with h | h | h | h | h
        · rw [h]
          exact hA
        · rw [h]
          exact hB
        · rw [h]
          exact hC
        · rw [h]
          exact hD
        · exact h
      exact ⟨hbound _ hx, hbound _ hy, hbound _ hz, hxy, hxz, hyz⟩

set_option maxRecDepth 400000 in
/-- Claim C10, witness at a concrete input. -/
theorem C10_witness :
    ((0 : ℤ) ≤ 4 ∧ (4 : ℤ) < (pts3ce.length : ℤ)) ∧
    ((0 : ℤ) ≤ 0 ∧ (0 : ℤ) < (pts3ce.length : ℤ)) ∧
    ((0 : ℤ) ≤ 1 ∧ (1 : ℤ) < (pts3ce.length : ℤ)) ∧
    (4 : ℤ) ≠ 0 ∧ (4 : ℤ) ≠ 1 ∧ (0 : ℤ) ≠ 1 :=
  C10_vertex_sanity pts3ce (1/2) ⟨4, 0, 1⟩ (by norm_num) (by with_unfolding_all decide)
